import Mathlib

/-!
Verification of the yusi LALR(1) parser-generator core against its
specification.  The Rust sources under `src/` are shallowly embedded below:
pure functions become Lean functions, the state threaded through the BNF
lowering becomes explicit state passing, `u64` machine integers become `Nat`
(the bitwise operations used — or, and, shift by less than 64 — cannot
overflow a `u64`, so no modulus is needed), and loops without a termination
argument become fuel-indexed functions returning `Option`.
-/

namespace Yusi

/-! ## BitSet (src/src/parser/bitset.rs)

A dense bitset over 64-bit blocks (`BLOCK_NBITS = 64`). -/

/-- Embeds `struct BitSet { slice: Box<[BitBlock]> }` with `BitBlock = u64`. -/
structure BitSet where
  slice : List Nat
  deriving DecidableEq

/-- The number of 64-bit blocks needed for `n` bits:
`(num_bits + BLOCK_NBITS - 1) / BLOCK_NBITS`. -/
def blocksOf (n : Nat) : Nat :=
  (n + 64 - 1) / 64

/-- Embeds `BitSet::new(num_bits)`: `(num_bits + BLOCK_NBITS - 1) / BLOCK_NBITS`
zero blocks. -/
def BitSet.new (numBits : Nat) : BitSet :=
  ⟨List.replicate (blocksOf numBits) 0⟩

/-- Embeds `BitSet::clear`: zero every block, keeping the length. -/
def BitSet.clear (s : BitSet) : BitSet :=
  ⟨s.slice.map fun _ => 0⟩

/-- Embeds `BitSet::insert(bit)`:
`slice[bit / 64] |= 1 << (bit % 64)`. -/
def BitSet.insert (s : BitSet) (bit : Nat) : BitSet :=
  ⟨s.slice.set (bit / 64) (s.slice.getD (bit / 64) 0 ||| (1 <<< (bit % 64)))⟩

/-- Embeds `BitSet::from_bit(num_bits, bit)`. -/
def BitSet.fromBit (numBits bit : Nat) : BitSet :=
  (BitSet.new numBits).insert bit

/-- Helper for `union_with`: blockwise or together with the
changed flag `changed |= old != slice[i]` accumulated over the loop. -/
def unionBlocks : List Nat → List Nat → List Nat × Bool
  | [], _ => ([], false)
  | x :: xs, ys =>
    let y := ys.headD 0
    let r := unionBlocks xs ys.tail
    ((x ||| y) :: r.1, decide ((x ||| y) ≠ x) || r.2)

/-- Embeds `BitSet::union_with(&mut self, other) -> bool`; returns the updated
set and whether it changed. -/
def BitSet.unionWith (s other : BitSet) : BitSet × Bool :=
  let r := unionBlocks s.slice other.slice
  (⟨r.1⟩, r.2)

/-- Embeds `BitSet::get(bit)` exactly as written in the source:
`slice[bit / BLOCK_NBITS] & (bit as u64 % BLOCK_NBITS as u64) != 0`.
Note the source masks with the bit index itself, not with
`1 << (bit % BLOCK_NBITS)`. -/
def BitSet.get (s : BitSet) (bit : Nat) : Bool :=
  decide (s.slice.getD (bit / 64) 0 &&& (bit % 64) ≠ 0)

/-- The intended membership reading of the bitset: bit `bit % 64` of block
`bit / 64`.  This is what `insert` sets and what `iter` walks; it is the
correct `contains`. -/
def BitSet.mem (s : BitSet) (bit : Nat) : Bool :=
  Nat.testBit (s.slice.getD (bit / 64) 0) (bit % 64)

/-! ## BNF data model (src/src/bnf.rs) -/

/-- Embeds `enum Symbol { Term(TermId), Nonterm(NontermId) }`; the dense
`u32` ids become `Nat`. -/
inductive Symbol where
  | term (id : Nat)
  | nonterm (id : Nat)
  deriving DecidableEq

/-- Embeds `enum Assoc { None, Left, Right }` from src/src/grammar.rs. -/
inductive Assoc where
  | none
  | left
  | right
  deriving DecidableEq

/-- Embeds `enum ProdAction` from src/src/bnf.rs. -/
inductive ProdAction where
  | none
  | startMany
  | continueMany
  | startMany1
  | continueMany1
  | emptyOption
  | nonemptyOption
  | emptySepBy
  | nonemptySepBy
  | startSepBy1
  | continueSepBy1
  deriving DecidableEq

/-- Embeds `struct Production`; `prec: Option<u16>` becomes `Option Nat`. -/
structure Production where
  nontermId : Nat
  action : ProdAction
  prec : Option Nat
  assoc : Assoc
  symbols : List Symbol
  deriving DecidableEq

/-- `Production::default()`: all fields at their Rust defaults. -/
instance : Inhabited Production :=
  ⟨⟨0, ProdAction.none, Option.none, Assoc.none, []⟩⟩

/-- Embeds `struct Nonterm { name, prod_range }`; the `Range<usize>` is the
pair of its `start` and `end` fields.  The source documents `prod_range` as
non-empty. -/
structure Nonterm where
  name : String
  rangeStart : Nat
  rangeStop : Nat
  deriving DecidableEq

/-- `Nonterm::default()`. -/
instance : Inhabited Nonterm := ⟨⟨"", 0, 0⟩⟩

/-- Embeds `struct Bnf`.  The `IndexMap<String, TermId>` of tokens assigns
ids in insertion order, so it is the list of token names (the id of a token
is its index); `starts` keeps the name together with its `NontermId`. -/
structure Bnf where
  tokens : List String
  starts : List (String × Nat)
  nonterms : List Nonterm
  prods : List Production
  deriving DecidableEq

/-! ## Derivations

The rewriting relation of a BNF, used to state what `nullable` and `first`
mean: one step replaces a nonterminal occurrence by the right-hand side of
one of its productions. -/

/-- One derivation step of the BNF. -/
inductive Step (bnf : Bnf) : List Symbol → List Symbol → Prop where
  | expand (l r : List Symbol) (p : Production) (hp : p ∈ bnf.prods) :
      Step bnf (l ++ Symbol.nonterm p.nontermId :: r) (l ++ p.symbols ++ r)

/-- Reflexive-transitive closure of `Step`: `α ⇒* β`. -/
def Derives (bnf : Bnf) : List Symbol → List Symbol → Prop :=
  Relation.ReflTransGen (Step bnf)

/-- Derivation in exactly `n` steps, used for inductions that need a
decreasing measure. -/
inductive DerivesN (bnf : Bnf) : Nat → List Symbol → List Symbol → Prop where
  | refl (σ : List Symbol) : DerivesN bnf 0 σ σ
  | head (σ ω τ : List Symbol) (n : Nat) :
      Step bnf σ ω → DerivesN bnf n ω τ → DerivesN bnf (n + 1) σ τ

/-! ## Nullable fixpoint (src/src/parser/sets.rs) -/

/-- Embeds `is_nullable(nullable, sym)`: terminals are never nullable, a
nonterminal looks up the current vector. -/
def isNullableSym (nl : List Bool) : Symbol → Bool
  | Symbol.term _ => false
  | Symbol.nonterm id => nl.getD id false

/-- One full pass of the `loop` in `gen_nullable`: for each production whose
symbols are all currently nullable, the source runs
`changed |= nullable[nt_ix]; nullable[nt_ix] = true;` — note that the flag
is or-ed with the OLD value of the entry, before it is overwritten. -/
def nullablePass (prods : List Production) (nl : List Bool) : List Bool × Bool :=
  prods.foldl
    (fun acc prod =>
      if prod.symbols.all (isNullableSym acc.1) then
        (acc.1.set prod.nontermId true, acc.2 || acc.1.getD prod.nontermId false)
      else acc)
    (nl, false)

/-- The `loop`/`break` of `gen_nullable`, fuel-indexed: `none` means the
loop has not exited within `fuel` passes. -/
def genNullableGo (prods : List Production) : Nat → List Bool → Option (List Bool)
  | 0, _ => none
  | fuel + 1, nl =>
    match nullablePass prods nl with
    | (nl2, true) => genNullableGo prods fuel nl2
    | (nl2, false) => some nl2

/-- Embeds `gen_nullable(bnf)`: start from all-false and iterate passes. -/
def genNullable (bnf : Bnf) (fuel : Nat) : Option (List Bool) :=
  genNullableGo bnf.prods fuel (List.replicate bnf.nonterms.length false)

/-- A BNF with one nonterminal `A` and the productions `A → ε` then
`A → A` (the textual test format produces it from the lines
`A ->` and `A -> A`).  `A` is self-nullable. -/
def bnfLoop : Bnf :=
  { tokens := []
    starts := [("A", 0)]
    nonterms := [⟨"A", 0, 2⟩]
    prods :=
      [⟨0, ProdAction.none, Option.none, Assoc.none, []⟩,
       ⟨0, ProdAction.none, Option.none, Assoc.none, [Symbol.nonterm 0]⟩] }

/-! ## FIRST fixpoint (src/src/parser/sets.rs) -/

/-- Embeds `compute_first_for_symbols(result, first, nullable, symbols,
lookaheads)`: scan the symbols left-to-right; a terminal inserts its bit and
returns; a nonterminal unions `first[id]` into the result and returns unless
it is nullable; when the loop falls off the end, the optional lookahead set
is unioned in. -/
def computeFirstForSymbols (result : BitSet) (first : List BitSet)
    (nl : List Bool) (symbols : List Symbol) (la : Option BitSet) : BitSet :=
  match symbols with
  | [] =>
    match la with
    | some s => (result.unionWith s).1
    | none => result
  | Symbol.term id :: _ => result.insert id
  | Symbol.nonterm id :: rest =>
    let result2 := (result.unionWith (first.getD id (BitSet.new 0))).1
    if nl.getD id false then computeFirstForSymbols result2 first nl rest la
    else result2

/-- The body of the `for prod in &bnf.prods` loop in `gen_first`: clear the
scratch buffer (in the source `buf.clear()`; since every operation preserves
the slice length, the cleared buffer is exactly `BitSet::new(tokens.len())`),
scan the right-hand side into it, and union it into `first[lhs]`, or-ing the
union-with-change flag into `changed`. -/
def firstPassStep (numTokens : Nat) (nl : List Bool)
    (acc : List BitSet × Bool) (prod : Production) : List BitSet × Bool :=
  let buf := computeFirstForSymbols (BitSet.new numTokens) acc.1 nl
    prod.symbols Option.none
  let u := (acc.1.getD prod.nontermId (BitSet.new numTokens)).unionWith buf
  (acc.1.set prod.nontermId u.1, acc.2 || u.2)

/-- One full pass of the `loop` in `gen_first`. -/
def firstPass (numTokens : Nat) (prods : List Production) (nl : List Bool)
    (first : List BitSet) : List BitSet × Bool :=
  prods.foldl (firstPassStep numTokens nl) (first, false)

/-- The `loop`/`break` of `gen_first`, fuel-indexed. -/
def genFirstGo (numTokens : Nat) (prods : List Production) (nl : List Bool) :
    Nat → List BitSet → Option (List BitSet)
  | 0, _ => none
  | fuel + 1, first =>
    match firstPass numTokens prods nl first with
    | (f2, true) => genFirstGo numTokens prods nl fuel f2
    | (f2, false) => some f2

/-- Embeds `gen_first(bnf, nullable)`: start from one empty set per
nonterminal and iterate passes until no set changes. -/
def genFirst (bnf : Bnf) (nl : List Bool) (fuel : Nat) : Option (List BitSet) :=
  genFirstGo bnf.tokens.length bnf.prods nl fuel
    (List.replicate bnf.nonterms.length (BitSet.new bnf.tokens.length))

/-- Membership of token `t` in the row of nonterminal `N` of a FIRST table. -/
def memRow (first : List BitSet) (n t : Nat) : Bool :=
  (first.getD n (BitSet.new 0)).mem t

/-! ## Specification-level predicates for nullable and FIRST -/

/-- Well-formed symbol of a BNF: its id indexes the right table. -/
def SymbolWF (bnf : Bnf) : Symbol → Prop
  | Symbol.term id => id < bnf.tokens.length
  | Symbol.nonterm id => id < bnf.nonterms.length

/-- Well-formed BNF: every production has an in-range left-hand side and
in-range symbols. -/
def BnfWF (bnf : Bnf) : Prop :=
  ∀ p ∈ bnf.prods, p.nontermId < bnf.nonterms.length ∧ ∀ s ∈ p.symbols, SymbolWF bnf s

/-- The nullable vector is correct for the BNF: it has one entry per
nonterminal and an entry is true exactly when that nonterminal derives ε. -/
def NullableCorrect (bnf : Bnf) (nl : List Bool) : Prop :=
  nl.length = bnf.nonterms.length ∧
    ∀ n < bnf.nonterms.length,
      (nl.getD n false = true ↔ Derives bnf [Symbol.nonterm n] [])

/-- Every symbol of the list is a nullable nonterminal (the only way a
sequence of symbols can be skipped by the left-to-right FIRST scan). -/
def NullPrefix (nl : List Bool) (σ : List Symbol) : Prop :=
  ∀ s ∈ σ, ∃ m, s = Symbol.nonterm m ∧ nl.getD m false = true

/-- Specification of one left-to-right FIRST scan over `σ` relative to an
abstract FIRST family `g`: token `t` is produced when some position of `σ`
is reached through a prefix of nullable nonterminals and either holds the
terminal `t` itself or holds a nonterminal whose `g`-row contains `t`. -/
def ScanMem (g : Nat → Nat → Prop) (nl : List Bool) (σ : List Symbol) (t : Nat) : Prop :=
  ∃ pre s post, σ = pre ++ s :: post ∧ NullPrefix nl pre ∧
    (s = Symbol.term t ∨ ∃ m, s = Symbol.nonterm m ∧ g m t)

/-- An abstract FIRST family is closed under the per-production scan. -/
def FirstClosed (prods : List Production) (nl : List Bool)
    (g : Nat → Nat → Prop) : Prop :=
  ∀ p ∈ prods, ∀ t, ScanMem g nl p.symbols t → g p.nontermId t

/-- Token `t` starts some sentential form derivable from nonterminal `n`. -/
def FirstSpecMem (bnf : Bnf) (n t : Nat) : Prop :=
  ∃ γ, Derives bnf [Symbol.nonterm n] (Symbol.term t :: γ)

/-! ## Grammar DSL (src/src/grammar.rs)

`Rule` is a transparent wrapper around `RuleInner`, so only the inner type
is embedded.  The Rust `Some` variant is the `many1` combinator (the lowering
in src/src/bnf.rs matches it as `Many1`). -/

/-- Embeds `enum RuleInner`. -/
inductive RuleInner where
  | sym (s : String)
  | seq (rs : List RuleInner)
  | orR (rs : List RuleInner)
  | many (r : RuleInner)
  | many1 (r : RuleInner)
  | option (r : RuleInner)
  | sepBy (sep : RuleInner) (rule : RuleInner)
  | sepBy1 (sep : RuleInner) (rule : RuleInner)
  | precR (p : Nat) (a : Assoc) (r : RuleInner)

/-- Embeds `struct Grammar`: ordered token names, ordered start names, and
the insertion-ordered rule map (represented as its list of entries; the
`IndexMap` keys are distinct by construction in `grammar`). -/
structure Grammar where
  tokens : List String
  start : List String
  rules : List (String × RuleInner)

/-- One `IndexMap::insert`: an existing key keeps its position and gets the
new value, a new key is appended. -/
def indexMapInsert (m : List (String × RuleInner)) (k : String)
    (v : RuleInner) : List (String × RuleInner) :=
  if (m.map Prod.fst).contains k then
    m.map (fun kv => if kv.1 = k then (k, v) else kv)
  else m ++ [(k, v)]

/-- Collecting a pair list into an `IndexMap`, as
`.collect::<IndexMap<_, _>>()` does. -/
def indexMapOfList (l : List (String × RuleInner)) : List (String × RuleInner) :=
  l.foldl (fun m kv => indexMapInsert m kv.1 kv.2) []

/-- Embeds the `grammar(tokens, start, rules)` constructor: collect the rule
list into an `IndexMap` and fail when the map is shorter than the list
(a duplicate rule name); no other check happens here. -/
def grammar (tokens : List String) (start : List String)
    (rules : List (String × RuleInner)) : Except String Grammar :=
  let rulesMap := indexMapOfList rules
  if rulesMap.length ≠ rules.length then
    Except.error "duplicate rule found in rule list"
  else
    Except.ok ⟨tokens, start, rulesMap⟩

mutual

/-- Embeds `RuleInner::validate(names)` together with the `for rule in rules`
loops of the `Seq`/`Or` arms (early return on the first undefined symbol). -/
def RuleInner.validate (names : Finset String) : RuleInner → Except String Unit
  | RuleInner.sym s =>
    if s ∈ names then Except.ok ()
    else Except.error ("symbol \x27" ++ s ++ "\x27 is undefined")
  | RuleInner.seq rs => validateRuleList names rs
  | RuleInner.orR rs => validateRuleList names rs
  | RuleInner.many r => r.validate names
  | RuleInner.many1 r => r.validate names
  | RuleInner.option r => r.validate names
  | RuleInner.sepBy sep r =>
    match sep.validate names with
    | Except.ok () => r.validate names
    | Except.error e => Except.error e
  | RuleInner.sepBy1 sep r =>
    match sep.validate names with
    | Except.ok () => r.validate names
    | Except.error e => Except.error e
  | RuleInner.precR _ _ r => r.validate names

def validateRuleList (names : Finset String) :
    List RuleInner → Except String Unit
  | [] => Except.ok ()
  | r :: rs =>
    match r.validate names with
    | Except.ok () => validateRuleList names rs
    | Except.error e => Except.error e

end

/-- The `for start in &self.start` loop of `Grammar::validate`: error on the
first start name that is not a defined rule. -/
def checkStarts (ruleNames : Finset String) : List String → Except String Unit
  | [] => Except.ok ()
  | s :: rest =>
    if s ∈ ruleNames then checkStarts ruleNames rest
    else Except.error ("start rule \x27" ++ s ++ "\x27 is undefined")

/-- The `for (_, rule) in &self.rules` loop of `Grammar::validate`. -/
def checkRules (names : Finset String) :
    List (String × RuleInner) → Except String Unit
  | [] => Except.ok ()
  | kv :: rest =>
    match kv.2.validate names with
    | Except.ok () => checkRules names rest
    | Except.error e => Except.error e

/-- Embeds `Grammar::validate`.  The Rust `HashSet`s become `Finset`s:
`token_names` and `rule_names` are the deduplicated name sets, the
duplicate checks compare set size against list length, and the collision
check compares the size of the union with the sum of the sizes. -/
def Grammar.validate (g : Grammar) : Except String Unit :=
  if g.tokens.isEmpty then Except.error "token list is empty"
  else if (g.tokens.toFinset).card ≠ g.tokens.length then
    Except.error "duplicate token found in token list"
  else if g.start.isEmpty then Except.error "start rule list is empty"
  else if (g.start.toFinset).card < g.start.length then
    Except.error "duplicate token found in start list"
  else
    match checkStarts ((g.rules.map Prod.fst).toFinset) g.start with
    | Except.error e => Except.error e
    | Except.ok () =>
      if (g.tokens.toFinset ∪ (g.rules.map Prod.fst).toFinset).card ≠
          (g.tokens.toFinset).card + ((g.rules.map Prod.fst).toFinset).card then
        Except.error "token name collides with rule name"
      else checkRules (g.tokens.toFinset ∪ (g.rules.map Prod.fst).toFinset)
        g.rules

mutual

/-- Specification-level predicate: the rule mentions a `Sym` whose name is
not among `names` (the claim's "some Sym(name) refers to an undefined
name"). -/
def RuleInner.usesUndef (names : List String) : RuleInner → Bool
  | RuleInner.sym s => !names.contains s
  | RuleInner.seq rs => usesUndefList names rs
  | RuleInner.orR rs => usesUndefList names rs
  | RuleInner.many r => r.usesUndef names
  | RuleInner.many1 r => r.usesUndef names
  | RuleInner.option r => r.usesUndef names
  | RuleInner.sepBy sep r => sep.usesUndef names || r.usesUndef names
  | RuleInner.sepBy1 sep r => sep.usesUndef names || r.usesUndef names
  | RuleInner.precR _ _ r => r.usesUndef names

def usesUndefList (names : List String) : List RuleInner → Bool
  | [] => false
  | r :: rs => r.usesUndef names || usesUndefList names rs

end

/-! ## BNF lowering (src/src/bnf.rs)

The mutually recursive `gen_nonterm` / `gen_prod` / `gen_sym` walk of the
rule tree, with the `&mut Vec<Nonterm>`, `&mut Vec<Production>` and
`&mut HashMap<String, Symbol>` turned into one explicitly threaded state. -/

/-- The mutable lowering state. -/
structure LowerSt where
  nonterms : List Nonterm
  prods : List Production
  symbols : List (String × Symbol)
  deriving DecidableEq

/-- `HashMap::get` over the association-list view of the symbol map. -/
def symLookup (m : List (String × Symbol)) (k : String) : Option Symbol :=
  (m.find? fun kv => kv.1 == k).map Prod.snd

/-- `HashMap::insert`: replace the binding of an existing key, otherwise add
one. -/
def symInsert (m : List (String × Symbol)) (k : String) (v : Symbol) :
    List (String × Symbol) :=
  if (m.map Prod.fst).contains k then
    m.map fun kv => if kv.1 = k then (k, v) else kv
  else m ++ [(k, v)]

mutual

/-- Modelled from the spec: `RuleInner::name()` is called by `gen_sym` and
`gen_nonterm` in src/src/bnf.rs but its definition is absent from src/.
Per §4.C, naming of synthesized nonterminals is "deterministic and derived
from the shape of the subrule (e.g. `<rule>*`, `<rule>?`,
`sepBy(sep,rule)`)"; this printer follows those shapes. -/
def RuleInner.name : RuleInner → String
  | RuleInner.sym s => s
  | RuleInner.seq rs => "(" ++ nameListSep " " rs ++ ")"
  | RuleInner.orR rs => "(" ++ nameListSep "|" rs ++ ")"
  | RuleInner.many r => r.name ++ "*"
  | RuleInner.many1 r => r.name ++ "+"
  | RuleInner.option r => r.name ++ "?"
  | RuleInner.sepBy sep r => "sepBy(" ++ sep.name ++ "," ++ r.name ++ ")"
  | RuleInner.sepBy1 sep r => "sepBy1(" ++ sep.name ++ "," ++ r.name ++ ")"
  | RuleInner.precR _ _ r => r.name

/-- Separator-joined names of a list of subrules. -/
def nameListSep (sep : String) : List RuleInner → String
  | [] => ""
  | [r] => r.name
  | r :: rs => r.name ++ sep ++ nameListSep sep rs

end

/-- `prods[prod_ix].prec = Some(prec); prods[prod_ix].assoc = assoc;` for one
production. -/
def stampProd (p : Nat) (a : Assoc) (prod : Production) : Production :=
  { prod with prec := some p, assoc := a }

/-- The body of `for prod_ix in &mut nonterms[id].prod_range { ... }` applied
to the production vector: stamp every index of the range. -/
def stampRange (prods : List Production) (rangeStart rangeStop : Nat)
    (p : Nat) (a : Assoc) : List Production :=
  prods.mapIdx fun i prod =>
    if rangeStart ≤ i ∧ i < rangeStop then stampProd p a prod else prod

/-- Iterating `&mut nonterms[id].prod_range` CONSUMES the range: when the
loop finishes, the stored `Range` has `start == end`.  This embeds the whole
precedence-stamping loop of `gen_nonterm`/`gen_sym`: stamp the productions
of the range, and leave the nonterminal with an empty range. -/
def stampNonterm (st : LowerSt) (id : Nat) (p : Nat) (a : Assoc) : LowerSt :=
  let nt := st.nonterms.getD id default
  { st with
    prods := stampRange st.prods nt.rangeStart nt.rangeStop p a
    nonterms := st.nonterms.set id ⟨nt.name, nt.rangeStop, nt.rangeStop⟩ }

/-- `prods[prod_ix].nonterm_id = id` for every index of the (cloned, hence
not drained) range, as `insert_nonterm` does. -/
def setNontermIdRange (prods : List Production) (rangeStart rangeStop id : Nat) :
    List Production :=
  prods.mapIdx fun i prod =>
    if rangeStart ≤ i ∧ i < rangeStop then { prod with nontermId := id }
    else prod

/-- Embeds `insert_nonterm(nonterms, prods, symbols, name, nonterm)`: reuse
the id when the name is already bound to a nonterminal (patching the new
productions and overwriting the nonterm slot), otherwise allocate a fresh id,
bind the name (replacing any previous binding), patch, and push. -/
def insertNonterm (name : String) (nt : Nonterm) (st : LowerSt) :
    Nat × LowerSt :=
  match symLookup st.symbols name with
  | some (Symbol.nonterm id) =>
    (id,
      { st with
        prods := setNontermIdRange st.prods nt.rangeStart nt.rangeStop id
        nonterms := st.nonterms.set id nt })
  | _ =>
    let id := st.nonterms.length
    (id,
      { st with
        symbols := symInsert st.symbols name (Symbol.nonterm id)
        prods := setNontermIdRange st.prods nt.rangeStart nt.rangeStop id
        nonterms := st.nonterms ++ [nt] })

/-- The id-reservation half of `gen_rep_nonterm`: reuse the id bound to the
name, or reserve a fresh placeholder `Nonterm::default()`. -/
def repReserve (name : String) (st : LowerSt) : Nat × LowerSt :=
  match symLookup st.symbols name with
  | some (Symbol.nonterm id) => (id, st)
  | _ =>
    let id := st.nonterms.length
    (id,
      { st with
        symbols := symInsert st.symbols name (Symbol.nonterm id)
        nonterms := st.nonterms ++ [default] })

/-- The finishing half of `gen_rep_nonterm`: `nonterms[id].name = name;
nonterms[id].prod_range = f(..)`. -/
def repFinish (name : String) (id rangeStart rangeStop : Nat)
    (st : LowerSt) : LowerSt :=
  { st with nonterms := st.nonterms.set id ⟨name, rangeStart, rangeStop⟩ }

mutual

/-- Termination weight for the lowering recursion.  It is the size of the
rule tree, except that `sepBy` is one heavier than the `sepBy1` it expands
to (`gen_nonterm` lowers `SepBy(sep, r)` by lowering `SepBy1(sep, r)`). -/
def ruleW : RuleInner → Nat
  | RuleInner.sym _ => 1
  | RuleInner.seq rs => 1 + ruleWList rs
  | RuleInner.orR rs => 1 + ruleWList rs
  | RuleInner.many r => 1 + ruleW r
  | RuleInner.many1 r => 1 + ruleW r
  | RuleInner.option r => 1 + ruleW r
  | RuleInner.sepBy sep r => 2 + ruleW sep + ruleW r
  | RuleInner.sepBy1 sep r => 1 + ruleW sep + ruleW r
  | RuleInner.precR _ _ r => 1 + ruleW r

/-- Weight of a rule list. -/
def ruleWList : List RuleInner → Nat
  | [] => 0
  | r :: rs => 1 + ruleW r + ruleWList rs

end

/-- Tie-break rank of `gen_nonterm` among the mutually recursive lowering
functions at equal rule weight. -/
def ntTag : RuleInner → Nat
  | RuleInner.sym _ => 3
  | RuleInner.seq _ => 4
  | _ => 0

/-- Tie-break rank of `gen_sym` among the mutually recursive lowering
functions at equal rule weight. -/
def symTag : RuleInner → Nat
  | RuleInner.seq _ => 5
  | _ => 1

mutual

/-- Embeds `gen_nonterm(nonterms, prods, symbols, name, rule)`.  The Rust
`Sym(_) | Seq(_)` arm is split in two (with the same body) so the
termination measure can see the constructor. -/
def genNonterm (name : String) (rule : RuleInner) (st : LowerSt) :
    Nat × LowerSt :=
  match rule with
  | RuleInner.sym s =>
    let pr := genProd ProdAction.none (RuleInner.sym s) st
    let prodIx := pr.2.prods.length
    let st2 := { pr.2 with prods := pr.2.prods ++ [pr.1] }
    insertNonterm name ⟨name, prodIx, prodIx + 1⟩ st2
  | RuleInner.seq rs =>
    let pr := genProd ProdAction.none (RuleInner.seq rs) st
    let prodIx := pr.2.prods.length
    let st2 := { pr.2 with prods := pr.2.prods ++ [pr.1] }
    insertNonterm name ⟨name, prodIx, prodIx + 1⟩ st2
  | RuleInner.orR rules =>
    let rp := genProdList rules st
    let rangeStart := rp.2.prods.length
    let st2 := { rp.2 with prods := rp.2.prods ++ rp.1 }
    insertNonterm name ⟨name, rangeStart, rangeStart + rp.1.length⟩ st2
  | RuleInner.many r =>
    let rid := repReserve name st
    let s1 := genSym r rid.2
    let prodStartIx := s1.2.prods.length
    let st2 := { s1.2 with prods := s1.2.prods ++
      [⟨rid.1, ProdAction.startMany, Option.none, Assoc.none, []⟩,
       ⟨rid.1, ProdAction.continueMany, Option.none, Assoc.none,
        [Symbol.nonterm rid.1, s1.1]⟩] }
    (rid.1, repFinish name rid.1 prodStartIx (prodStartIx + 2) st2)
  | RuleInner.many1 r =>
    let rid := repReserve name st
    let s1 := genSym r rid.2
    let prodStartIx := s1.2.prods.length
    let st2 := { s1.2 with prods := s1.2.prods ++
      [⟨rid.1, ProdAction.startMany1, Option.none, Assoc.none, [s1.1]⟩,
       ⟨rid.1, ProdAction.continueMany1, Option.none, Assoc.none,
        [Symbol.nonterm rid.1, s1.1]⟩] }
    (rid.1, repFinish name rid.1 prodStartIx (prodStartIx + 2) st2)
  | RuleInner.option r =>
    let rid := repReserve name st
    let pr := genProd ProdAction.nonemptyOption r rid.2
    let prodStartIx := pr.2.prods.length
    let st2 := { pr.2 with prods := pr.2.prods ++
      [⟨rid.1, ProdAction.emptyOption, Option.none, Assoc.none, []⟩,
       { pr.1 with nontermId := rid.1 }] }
    (rid.1, repFinish name rid.1 prodStartIx (prodStartIx + 2) st2)
  | RuleInner.sepBy sep r =>
    let pr := genProd ProdAction.nonemptySepBy (RuleInner.sepBy1 sep r) st
    let rangeStart := pr.2.prods.length
    let st2 := { pr.2 with prods := pr.2.prods ++
      [⟨0, ProdAction.emptySepBy, Option.none, Assoc.none, []⟩, pr.1] }
    insertNonterm name ⟨name, rangeStart, rangeStart + 2⟩ st2
  | RuleInner.sepBy1 sep r =>
    let rid := repReserve name st
    let s1 := genSym sep rid.2
    let s2 := genSym r s1.2
    let prodStartIx := s2.2.prods.length
    let st2 := { s2.2 with prods := s2.2.prods ++
      [⟨rid.1, ProdAction.startSepBy1, Option.none, Assoc.none, [s2.1]⟩,
       ⟨rid.1, ProdAction.continueSepBy1, Option.none, Assoc.none,
        [Symbol.nonterm rid.1, s1.1, s2.1]⟩] }
    (rid.1, repFinish name rid.1 prodStartIx (prodStartIx + 2) st2)
  | RuleInner.precR p a r =>
    let res := genNonterm name r st
    (res.1, stampNonterm res.2 res.1 p a)
termination_by (ruleW rule, ntTag rule)
decreasing_by all_goals (first
  | (apply Prod.Lex.right <;> simp [ntTag, symTag])
  | (apply Prod.Lex.left <;> simp [ruleW, ruleWList] <;> omega))

/-- Embeds `gen_prod(nonterms, prods, symbols, action, rule)`.  The Rust
catch-all `_` arm is expanded per constructor (identical bodies) so the
termination measure can see the constructor. -/
def genProd (action : ProdAction) (rule : RuleInner) (st : LowerSt) :
    Production × LowerSt :=
  match rule with
  | RuleInner.seq rules =>
    let rs := genSymList rules st
    (⟨0, action, Option.none, Assoc.none, rs.1⟩, rs.2)
  | RuleInner.precR p a r =>
    let pr := genProd action r st
    ({ pr.1 with prec := some p, assoc := a }, pr.2)
  | RuleInner.sym s =>
    let sy := genSym (RuleInner.sym s) st
    (⟨0, action, Option.none, Assoc.none, [sy.1]⟩, sy.2)
  | RuleInner.orR rs =>
    let sy := genSym (RuleInner.orR rs) st
    (⟨0, action, Option.none, Assoc.none, [sy.1]⟩, sy.2)
  | RuleInner.many r =>
    let sy := genSym (RuleInner.many r) st
    (⟨0, action, Option.none, Assoc.none, [sy.1]⟩, sy.2)
  | RuleInner.many1 r =>
    let sy := genSym (RuleInner.many1 r) st
    (⟨0, action, Option.none, Assoc.none, [sy.1]⟩, sy.2)
  | RuleInner.option r =>
    let sy := genSym (RuleInner.option r) st
    (⟨0, action, Option.none, Assoc.none, [sy.1]⟩, sy.2)
  | RuleInner.sepBy sep r =>
    let sy := genSym (RuleInner.sepBy sep r) st
    (⟨0, action, Option.none, Assoc.none, [sy.1]⟩, sy.2)
  | RuleInner.sepBy1 sep r =>
    let sy := genSym (RuleInner.sepBy1 sep r) st
    (⟨0, action, Option.none, Assoc.none, [sy.1]⟩, sy.2)
termination_by (ruleW rule, 2)
decreasing_by all_goals (first
  | (apply Prod.Lex.right <;> simp [ntTag, symTag])
  | (apply Prod.Lex.left <;> simp [ruleW, ruleWList] <;> omega))

/-- Embeds `gen_sym(nonterms, prods, symbols, rule)`.  For a missing `Sym`
the source prints a debug line and panics on the map index; on validated
input this cannot happen, and the embedding returns an arbitrary default.
The Rust catch-all `_` arm is expanded per constructor (identical bodies)
so the termination measure can see the constructor. -/
def genSym (rule : RuleInner) (st : LowerSt) : Symbol × LowerSt :=
  match rule with
  | RuleInner.sym s => ((symLookup st.symbols s).getD (Symbol.term 0), st)
  | RuleInner.precR p a r =>
    let probe := genSym r st
    match probe.1 with
    | Symbol.term _ =>
      let res := genNonterm (RuleInner.name r) r probe.2
      (Symbol.nonterm res.1, stampNonterm res.2 res.1 p a)
    | Symbol.nonterm id =>
      (Symbol.nonterm id, stampNonterm probe.2 id p a)
  | RuleInner.seq rs =>
    let res := genNonterm (RuleInner.name (RuleInner.seq rs))
      (RuleInner.seq rs) st
    (Symbol.nonterm res.1, res.2)
  | RuleInner.orR rs =>
    let res := genNonterm (RuleInner.name (RuleInner.orR rs))
      (RuleInner.orR rs) st
    (Symbol.nonterm res.1, res.2)
  | RuleInner.many r =>
    let res := genNonterm (RuleInner.name (RuleInner.many r))
      (RuleInner.many r) st
    (Symbol.nonterm res.1, res.2)
  | RuleInner.many1 r =>
    let res := genNonterm (RuleInner.name (RuleInner.many1 r))
      (RuleInner.many1 r) st
    (Symbol.nonterm res.1, res.2)
  | RuleInner.option r =>
    let res := genNonterm (RuleInner.name (RuleInner.option r))
      (RuleInner.option r) st
    (Symbol.nonterm res.1, res.2)
  | RuleInner.sepBy sep r =>
    let res := genNonterm (RuleInner.name (RuleInner.sepBy sep r))
      (RuleInner.sepBy sep r) st
    (Symbol.nonterm res.1, res.2)
  | RuleInner.sepBy1 sep r =>
    let res := genNonterm (RuleInner.name (RuleInner.sepBy1 sep r))
      (RuleInner.sepBy1 sep r) st
    (Symbol.nonterm res.1, res.2)
termination_by (ruleW rule, symTag rule)
decreasing_by all_goals (first
  | (apply Prod.Lex.right <;> simp [ntTag, symTag])
  | (apply Prod.Lex.left <;> simp [ruleW, ruleWList] <;> omega))

/-- The `rules.into_iter().map(|rule| gen_prod(.., None, rule))` of the `Or`
arm of `gen_nonterm`, in order. -/
def genProdList (rules : List RuleInner) (st : LowerSt) :
    List Production × LowerSt :=
  match rules with
  | [] => ([], st)
  | r :: rs =>
    let pr := genProd ProdAction.none r st
    let rest := genProdList rs pr.2
    (pr.1 :: rest.1, rest.2)
termination_by (ruleWList rules, 2)
decreasing_by all_goals (first
  | (apply Prod.Lex.right <;> simp [ntTag, symTag])
  | (apply Prod.Lex.left <;> simp [ruleW, ruleWList] <;> omega))

/-- The `rules.into_iter().map(gen_sym)` of the `Seq` arm of `gen_prod`,
in order. -/
def genSymList (rules : List RuleInner) (st : LowerSt) :
    List Symbol × LowerSt :=
  match rules with
  | [] => ([], st)
  | r :: rs =>
    let s := genSym r st
    let rest := genSymList rs s.2
    (s.1 :: rest.1, rest.2)
termination_by (ruleWList rules, 1)
decreasing_by all_goals (first
  | (apply Prod.Lex.right <;> simp [ntTag, symTag])
  | (apply Prod.Lex.left <;> simp [ruleW, ruleWList] <;> omega))

end

/-- Embeds `impl From<Grammar> for Bnf`: assign token ids in declaration
order, pre-bind every rule name to its declaration-index `NontermId` and
every token name to its `TermId`, pre-reserve one default `Nonterm` per
rule, lower each rule in order, then resolve the start names (the source
unwraps; the embedding defaults to 0, unreachable on validated input). -/
def lowerGrammar (g : Grammar) : Bnf :=
  let s1 := g.rules.enum.foldl
    (fun m ikv => symInsert m ikv.2.1 (Symbol.nonterm ikv.1)) []
  let s2 := g.tokens.enum.foldl
    (fun m it => symInsert m it.2 (Symbol.term it.1)) s1
  let st0 : LowerSt :=
    { nonterms := List.replicate g.rules.length default
      prods := []
      symbols := s2 }
  let stF := g.rules.foldl (fun st kv => (genNonterm kv.1 kv.2 st).2) st0
  let starts := g.start.map fun s =>
    (s, match symLookup stF.symbols s with
        | some (Symbol.nonterm id) => id
        | _ => 0)
  { tokens := g.tokens
    starts := starts
    nonterms := stF.nonterms
    prods := stF.prods }

/-- A validated grammar with rule `X = a | b` and rule
`S = prec(1, Left, X)` — `Prec` wrapping a bare `Sym` that names the
NONTERMINAL `X`, used as a subsymbol of `S`. -/
def gXS : Grammar :=
  { tokens := ["a", "b"]
    start := ["S"]
    rules :=
      [("X", RuleInner.orR [RuleInner.sym "a", RuleInner.sym "b"]),
       ("S", RuleInner.seq [RuleInner.precR 1 Assoc.left (RuleInner.sym "X")])] }

/-- A validated grammar where `X = a | b` is used twice inside `S`: once
wrapped in `Prec` and once bare. -/
def gPrecShared : Grammar :=
  { tokens := ["a", "b"]
    start := ["S"]
    rules :=
      [("X", RuleInner.orR [RuleInner.sym "a", RuleInner.sym "b"]),
       ("S", RuleInner.seq [RuleInner.precR 1 Assoc.left (RuleInner.sym "X"),
         RuleInner.sym "X"])] }

/-- The claimed BNF invariant: every production's index lies in the range of
the nonterminal recorded as its left-hand side; every `prod_range` is
non-empty and within the production vector; ranges of distinct nonterminals
are disjoint. -/
def C5Prop (bnf : Bnf) : Prop :=
  (∀ i < bnf.prods.length, ∃ j < bnf.nonterms.length,
    ((bnf.nonterms.getD j default).rangeStart ≤ i ∧
      i < (bnf.nonterms.getD j default).rangeStop) ∧
    (bnf.prods.getD i default).nontermId = j) ∧
  (∀ j < bnf.nonterms.length,
    (bnf.nonterms.getD j default).rangeStart <
      (bnf.nonterms.getD j default).rangeStop ∧
    (bnf.nonterms.getD j default).rangeStop ≤ bnf.prods.length) ∧
  (∀ j1 < bnf.nonterms.length, ∀ j2 < bnf.nonterms.length, j1 ≠ j2 →
    ((bnf.nonterms.getD j1 default).rangeStop ≤
      (bnf.nonterms.getD j2 default).rangeStart ∨
     (bnf.nonterms.getD j2 default).rangeStop ≤
      (bnf.nonterms.getD j1 default).rangeStart))

/-- A small lowering state binding `X` to nonterminal 0 (one production
`X → a`), for instantiating the precedence-stamping theorem. -/
def stC3 : LowerSt :=
  { nonterms := [⟨"X", 0, 1⟩]
    prods := [⟨0, ProdAction.none, Option.none, Assoc.none, [Symbol.term 0]⟩]
    symbols := [("X", Symbol.nonterm 0), ("a", Symbol.term 0)] }

/-- A small lowering state binding only the token `a`, for instantiating the
repetition-lowering theorem. -/
def stC9 : LowerSt :=
  { nonterms := []
    prods := []
    symbols := [("a", Symbol.term 0), ("b", Symbol.term 1)] }

/-- The seven failure conditions of the claim about `Grammar::validate`: the
token list is empty, the token list has duplicates, the start list is empty,
the start list has duplicates, a start name does not name a defined rule, a
name appears in both the token and rule tables, or some `Sym(name)` in a
rule refers to an undefined name. -/
def ValidateFailCond (g : Grammar) : Prop :=
  g.tokens = [] ∨ ¬ g.tokens.Nodup ∨ g.start = [] ∨ ¬ g.start.Nodup ∨
  (∃ s ∈ g.start, s ∉ g.rules.map Prod.fst) ∨
  (∃ nm, nm ∈ g.tokens ∧ nm ∈ g.rules.map Prod.fst) ∨
  (∃ kv ∈ g.rules,
    RuleInner.usesUndef (g.tokens ++ g.rules.map Prod.fst) kv.2 = true)

/-! ## Parser construction and the specified LALR(1) automaton -/

/-- Embeds `Bnf::augment` (src/src/bnf.rs): for each start entry in order,
append a nonterminal `$start(name)` owning one new production
`$start(name) → old id` and rebind the start entry to the new id. -/
def augmentGo : List (String × Nat) → List Nonterm → List Production →
    List (String × Nat) × List Nonterm × List Production
  | [], nts, ps => ([], nts, ps)
  | (name, id) :: rest, nts, ps =>
    let newId := nts.length
    let r := augmentGo rest
      (nts ++ [⟨"$start(" ++ name ++ ")", ps.length, ps.length + 1⟩])
      (ps ++ [⟨newId, ProdAction.none, Option.none, Assoc.none,
        [Symbol.nonterm id]⟩])
    ((name, newId) :: r.1, r.2)

/-- Embeds `Bnf::augment` on the whole BNF record. -/
def Bnf.augment (b : Bnf) : Bnf :=
  let r := augmentGo b.starts b.nonterms b.prods
  { b with starts := r.1, nonterms := r.2.1, prods := r.2.2 }

/-- Embeds the (field-less) `Parser` struct of src/src/parser.rs. -/
structure Parser

/-- Embeds `Parser::new` (src/src/parser.rs): validate, lower, augment,
call the state generator, DISCARD its result, and return `Ok(Parser {})`.
The state generator itself cannot fail (and the body of its worker
`gen_states_for_start` in src/src/parser/state.rs is empty), so no value
other than the validation error can ever be returned. -/
def ParserNew (g : Grammar) : Except String Parser :=
  match Grammar.validate g with
  | Except.error e => Except.error e
  | Except.ok _ =>
    let _bnf := Bnf.augment (lowerGrammar g)
    Except.ok ⟨⟩

/-- Modelled from the spec: the symbol after the dot of an LR(0) item
(production index, dot position), §4.E. -/
def symAfterDot (bnf : Bnf) (it : Nat × Nat) : Option Symbol :=
  (bnf.prods.getD it.1 default).symbols[it.2]?

/-- Modelled from the spec: the production indices owned by a nonterminal
(production and nonterm identity are stable, §4 invariants). -/
def prodsOf (bnf : Bnf) (m : Nat) : List Nat :=
  (List.range bnf.prods.length).filter
    fun i => (bnf.prods.getD i default).nontermId == m

/-- Modelled from the spec: canonical insertion (by prod index, then dot)
used to store kernel items deterministically, §4.E. -/
def insSorted (x : Nat × Nat) : List (Nat × Nat) → List (Nat × Nat)
  | [] => [x]
  | y :: ys =>
    if x = y then y :: ys
    else if x.1 < y.1 ∨ (x.1 = y.1 ∧ x.2 ≤ y.2) then x :: y :: ys
    else y :: insSorted x ys

/-- Modelled from the spec: one pass of the LR(0) closure — every item with
a nonterminal after the dot contributes that nonterminal's productions with
the dot at 0, §4.E. -/
def closure0Step (bnf : Bnf) (items : List (Nat × Nat)) :
    List (Nat × Nat) × Bool :=
  items.foldl (fun acc it =>
    match symAfterDot bnf it with
    | some (Symbol.nonterm m) =>
      ((prodsOf bnf m).map fun q => ((q, 0) : Nat × Nat)).foldl
        (fun acc2 nit =>
          if acc2.1.contains nit then acc2 else (acc2.1 ++ [nit], true))
        acc
    | _ => acc) (items, false)

/-- Modelled from the spec: LR(0) closure to fixpoint, with fuel. -/
def closure0 (bnf : Bnf) : Nat → List (Nat × Nat) → Option (List (Nat × Nat))
  | 0, _ => Option.none
  | fuel + 1, items =>
    let r := closure0Step bnf items
    if r.2 then closure0 bnf fuel r.1 else some r.1

/-- Modelled from the spec: the symbols appearing after the dot in a closed
item set, in first-seen order (transition determinism, §4.E). -/
def afterDotSyms (bnf : Bnf) (items : List (Nat × Nat)) : List Symbol :=
  items.foldl (fun acc it =>
    match symAfterDot bnf it with
    | some s => if acc.contains s then acc else acc ++ [s]
    | Option.none => acc) []

/-- Modelled from the spec: the successor kernel under a symbol — advance
the dot over every item reading that symbol, stored canonically, §4.E. -/
def gotoKernel (bnf : Bnf) (items : List (Nat × Nat)) (x : Symbol) :
    List (Nat × Nat) :=
  items.foldl (fun acc it =>
    if symAfterDot bnf it = some x then insSorted (it.1, it.2 + 1) acc
    else acc) []

/-- Modelled from the spec: the start kernel of an augmented start
nonterminal — its single production with the dot at 0, §4.E. -/
def startKernel (bnf : Bnf) (id : Nat) : List (Nat × Nat) :=
  (prodsOf bnf id).map fun q => (q, 0)

/-- Modelled from the spec: the worklist of the canonical collection —
process states in insertion order, compute closure, group by symbol after
the dot, insert or merge successor kernels by kernel identity, record the
transitions, §4.E.  Returns the kernel keys in state order and the
per-state transition lists. -/
def genStatesGo (bnf : Bnf) (cfuel : Nat) :
    Nat → List (List (Nat × Nat)) → List (List (Symbol × Nat)) →
    Option (List (List (Nat × Nat)) × List (List (Symbol × Nat)))
  | 0, _, _ => Option.none
  | fuel + 1, keys, done =>
    if done.length < keys.length then
      match closure0 bnf cfuel (keys.getD done.length []) with
      | Option.none => Option.none
      | some cl =>
        let step := (afterDotSyms bnf cl).foldl
          (fun (acc : List (List (Nat × Nat)) × List (Symbol × Nat)) x =>
            let tk := gotoKernel bnf cl x
            match acc.1.findIdx? (fun k => k == tk) with
            | some j => (acc.1, acc.2 ++ [(x, j)])
            | Option.none => (acc.1 ++ [tk], acc.2 ++ [(x, acc.1.length)]))
          (keys, [])
        genStatesGo bnf cfuel fuel step.1 (done ++ [step.2])
    else some (keys, done)

/-- Modelled from the spec: the LR(0) canonical collection, seeded with the
start kernels of all augmented starts, §4.E. -/
def genStates0 (bnf : Bnf) (cfuel fuel : Nat) :
    Option (List (List (Nat × Nat)) × List (List (Symbol × Nat))) :=
  genStatesGo bnf cfuel fuel
    (bnf.starts.foldl (fun acc s =>
      let k := startKernel bnf s.2
      if acc.contains k then acc else acc ++ [k]) []) []

/-- Modelled from the spec: one pass of the nullable fixpoint (§4.C) with a
change flag that only fires on a genuine change. -/
def specNullablePass (bnf : Bnf) (nl : List Bool) : List Bool × Bool :=
  bnf.prods.foldl (fun acc prod =>
    if prod.symbols.all (isNullableSym acc.1) then
      if acc.1.getD prod.nontermId false then acc
      else (acc.1.set prod.nontermId true, true)
    else acc) (nl, false)

/-- Modelled from the spec: the nullable fixpoint, with fuel. -/
def specNullable (bnf : Bnf) : Nat → List Bool → Option (List Bool)
  | 0, _ => Option.none
  | fuel + 1, nl =>
    let r := specNullablePass bnf nl
    if r.2 then specNullable bnf fuel r.1 else some r.1

/-- Modelled from the spec: `first_of(σ, lookaheads)` — FIRST of a symbol
string, plus the supplied lookahead set when the whole string is nullable
(§4.D).  Token sets are Nat bitmasks. -/
def firstOfMask (nl : List Bool) (F : List Nat) :
    List Symbol → Nat → Nat
  | [], l => l
  | Symbol.term t :: _, _ => 2 ^ t
  | Symbol.nonterm m :: rest, l =>
    if nl.getD m false then Nat.lor (F.getD m 0) (firstOfMask nl F rest l)
    else F.getD m 0

/-- Modelled from the spec: one pass of the FIRST fixpoint (§4.D) with a
change flag that only fires on a genuine change. -/
def specFirstPass (bnf : Bnf) (nl : List Bool) (F : List Nat) :
    List Nat × Bool :=
  bnf.prods.foldl (fun acc prod =>
    let m := firstOfMask nl acc.1 prod.symbols 0
    let old := acc.1.getD prod.nontermId 0
    let nw := Nat.lor old m
    if nw = old then acc else (acc.1.set prod.nontermId nw, true))
    (F, false)

/-- Modelled from the spec: the FIRST fixpoint, with fuel. -/
def specFirst (bnf : Bnf) (nl : List Bool) : Nat → List Nat → Option (List Nat)
  | 0, _ => Option.none
  | fuel + 1, f =>
    let r := specFirstPass bnf nl f
    if r.2 then specFirst bnf nl fuel r.1 else some r.1

/-- Modelled from the spec: merge an item with a lookahead mask into a
closed item list, unioning masks of an existing entry (§4.F). -/
def mergeLA (items : List ((Nat × Nat) × Nat)) (it : Nat × Nat) (m : Nat) :
    List ((Nat × Nat) × Nat) × Bool :=
  match items.findIdx? (fun e => e.1 == it) with
  | some j =>
    let old := (items.getD j ((0, 0), 0)).2
    let nw := Nat.lor old m
    if nw = old then (items, false) else (items.set j (it, nw), true)
  | Option.none => (items ++ [(it, m)], true)

/-- Modelled from the spec: one pass of the LALR(1) closure — expanding `M`
at `(N → α · M β, L)` yields `(M → · γ, first_of(β, L))` for each
production `M → γ` (§4.F). -/
def closureLAStep (bnf : Bnf) (nl : List Bool) (F : List Nat)
    (items : List ((Nat × Nat) × Nat)) : List ((Nat × Nat) × Nat) × Bool :=
  items.foldl (fun acc e =>
    match symAfterDot bnf e.1 with
    | some (Symbol.nonterm m) =>
      let la := firstOfMask nl F
        ((bnf.prods.getD e.1.1 default).symbols.drop (e.1.2 + 1)) e.2
      (prodsOf bnf m).foldl (fun acc2 q =>
        let r := mergeLA acc2.1 (q, 0) la
        (r.1, acc2.2 || r.2)) acc
    | _ => acc) (items, false)

/-- Modelled from the spec: LALR(1) closure to fixpoint, with fuel. -/
def closureLA (bnf : Bnf) (nl : List Bool) (F : List Nat) :
    Nat → List ((Nat × Nat) × Nat) → Option (List ((Nat × Nat) × Nat))
  | 0, _ => Option.none
  | fuel + 1, items =>
    let r := closureLAStep bnf nl F items
    if r.2 then closureLA bnf nl F fuel r.1 else some r.1

/-- Modelled from the spec: union a mask into the lookahead bitset of
kernel item `j` of state `t` (§4.F). -/
def updateLA (las : List (List Nat)) (t j m : Nat) : List (List Nat) :=
  las.set t ((las.getD t []).set j (Nat.lor ((las.getD t []).getD j 0) m))

/-- Modelled from the spec: discovery of spontaneous lookaheads and
propagate edges — close each kernel item with a marker lookahead; for each
resulting item with a symbol after the dot, locate the advanced item in the
goto target; a surviving marker records a propagate edge and every real
lookahead bit is added spontaneously (§4.F). -/
def lalrEdges (bnf : Bnf) (nl : List Bool) (F : List Nat) (cfuel : Nat)
    (keys : List (List (Nat × Nat))) (trans : List (List (Symbol × Nat)))
    (marker : Nat) :
    Option (List ((Nat × Nat) × (Nat × Nat)) × List (List Nat)) :=
  (List.range keys.length).foldlM (fun a s =>
    (List.range (keys.getD s []).length).foldlM (fun a2 i => do
      let cl ← closureLA bnf nl F cfuel
        [((keys.getD s []).getD i (0, 0), 2 ^ marker)]
      some (cl.foldl (fun
          (a3 : List ((Nat × Nat) × (Nat × Nat)) × List (List Nat)) e =>
        match symAfterDot bnf e.1 with
        | some x =>
          match (trans.getD s []).find? (fun p => p.1 == x) with
          | some pt =>
            match (keys.getD pt.2 []).findIdx?
                (fun k => k == (e.1.1, e.1.2 + 1)) with
            | some j =>
              ((if Nat.testBit e.2 marker then a3.1 ++ [((s, i), (pt.2, j))]
                else a3.1),
               updateLA a3.2 pt.2 j (e.2 % 2 ^ marker))
            | Option.none => a3
          | Option.none => a3
        | Option.none => a3) a2)) a)
    ([], keys.map fun k => k.map fun _ => 0)

/-- Modelled from the spec: seed the kernel items of every start state with
the end-of-input sentinel (§4.F phase 1). -/
def seedStarts (bnf : Bnf) (keys : List (List (Nat × Nat)))
    (las : List (List Nat)) (eofBit : Nat) : List (List Nat) :=
  bnf.starts.foldl (fun l s =>
    match keys.findIdx? (fun k => k == startKernel bnf s.2) with
    | some si =>
      (List.range (keys.getD si []).length).foldl
        (fun l2 i => updateLA l2 si i (2 ^ eofBit)) l
    | Option.none => l) las

/-- Modelled from the spec: one pass of lookahead propagation along the
propagate edges (§4.F phase 3). -/
def propagateStep (edges : List ((Nat × Nat) × (Nat × Nat)))
    (las : List (List Nat)) : List (List Nat) × Bool :=
  edges.foldl (fun acc e =>
    let src := (acc.1.getD e.1.1 []).getD e.1.2 0
    let old := (acc.1.getD e.2.1 []).getD e.2.2 0
    if Nat.lor old src = old then acc
    else (updateLA acc.1 e.2.1 e.2.2 src, true)) (las, false)

/-- Modelled from the spec: lookahead propagation to fixpoint, with fuel. -/
def propagateLA (edges : List ((Nat × Nat) × (Nat × Nat))) :
    Nat → List (List Nat) → Option (List (List Nat))
  | 0, _ => Option.none
  | fuel + 1, las =>
    let r := propagateStep edges las
    if r.2 then propagateLA edges fuel r.1 else some r.1

/-- Modelled from the spec: the whole LALR(1) automaton — nullable, FIRST,
LR(0) canonical collection, seed, spontaneous/propagate discovery with the
marker bit just above the end-of-input sentinel, and propagation.  Returns
kernel keys, transitions, and final kernel lookahead masks (§4.E, §4.F). -/
def lalrAutomaton (bnf : Bnf) (fuel : Nat) :
    Option (List (List (Nat × Nat)) × List (List (Symbol × Nat)) ×
      List (List Nat)) := do
  let nl ← specNullable bnf fuel (List.replicate bnf.nonterms.length false)
  let f ← specFirst bnf nl fuel (List.replicate bnf.nonterms.length 0)
  let ks ← genStates0 bnf fuel fuel
  let eofBit := bnf.tokens.length
  let marker := bnf.tokens.length + 1
  let ed ← lalrEdges bnf nl f fuel ks.1 ks.2 marker
  let las ← propagateLA ed.1 fuel (seedStarts bnf ks.1 ed.2 eofBit)
  some (ks.1, ks.2, las)

/-- Modelled from the spec: shift/reduce resolution — with precedence on
both sides the higher precedence wins, on equal precedence `Left` reduces,
`Right` shifts, and `None` is an unresolved conflict; without precedence on
both sides the conflict is unresolved (§4 Conflicts and resolution).
`some true` reduces, `some false` shifts, `none` is unresolved. -/
def resolveSR (red sh : Production) : Option Bool :=
  match red.prec, sh.prec with
  | some p1, some p2 =>
    if p2 < p1 then some true
    else if p1 < p2 then some false
    else match red.assoc with
      | Assoc.left => some true
      | Assoc.right => some false
      | Assoc.none => Option.none
  | _, _ => Option.none

/-- Modelled from the spec: a reduce/reduce pair is resolved only when both
productions carry precedence and the precedences differ (§4 Conflicts and
resolution). -/
def resolvedRR (r1 r2 : Production) : Bool :=
  match r1.prec, r2.prec with
  | some p1, some p2 => decide (p1 ≠ p2)
  | _, _ => false

/-- Modelled from the spec: whether state `s` has an unresolved conflict on
some lookahead terminal — a reduction (kernel item with the dot at the end
whose lookahead set holds `t`) against either a shift item of the closure
reading `t` or a second reduction on `t` (§4 Conflicts and resolution). -/
def conflictAtState (bnf : Bnf) (keys : List (List (Nat × Nat)))
    (las : List (List Nat)) (cl : List (Nat × Nat)) (s : Nat) : Bool :=
  (List.range (bnf.tokens.length + 1)).any fun t =>
    let kern := keys.getD s []
    let reds := ((List.range kern.length).filter fun i =>
      (symAfterDot bnf (kern.getD i (0, 0))).isNone &&
      Nat.testBit ((las.getD s []).getD i 0) t).map
      fun i => (kern.getD i (0, 0)).1
    let shs := (cl.filter fun it =>
      symAfterDot bnf it == some (Symbol.term t)).map Prod.fst
    (reds.any fun i => shs.any fun j =>
      (resolveSR (bnf.prods.getD i default) (bnf.prods.getD j default)).isNone) ||
    (reds.any fun i => reds.any fun j =>
      decide (i ≠ j) &&
      !resolvedRR (bnf.prods.getD i default) (bnf.prods.getD j default))

/-- Modelled from the spec: whether the LALR(1) automaton of a BNF has any
unresolved conflict after precedence resolution (§4, §5 failure modes). -/
def hasUnresolvedConflict (bnf : Bnf) (fuel : Nat) : Option Bool := do
  let a ← lalrAutomaton bnf fuel
  (List.range a.1.length).foldlM (fun acc s => do
    let cl ← closure0 bnf fuel (a.1.getD s [])
    some (acc || conflictAtState bnf a.1 a.2.2 cl s)) false

/-- The validated but ambiguous grammar `S = S S | a`: its LALR(1)
automaton has a shift/reduce conflict on `a`, and no production carries a
precedence, so the conflict is unresolved. -/
def gConf : Grammar :=
  { tokens := ["a"]
    start := ["S"]
    rules := [("S", RuleInner.orR
      [RuleInner.seq [RuleInner.sym "S", RuleInner.sym "S"],
       RuleInner.sym "a"])] }

/-! ## Lemmas: bitset decoding -/

/-- A BNF with one token `a` (id 0), one nonterminal `A` (id 0) and the
productions `A → a` and `A → ε`, used to instantiate theorems about
`gen_first` at a concrete input. -/
def bnfW : Bnf :=
  { tokens := ["a"]
    starts := [("A", 0)]
    nonterms := [⟨"A", 0, 2⟩]
    prods :=
      [⟨0, ProdAction.none, Option.none, Assoc.none, [Symbol.term 0]⟩,
       ⟨0, ProdAction.none, Option.none, Assoc.none, []⟩] }

/-- A BNF with nonterminals `A` (id 0) and `B` (id 1) and the productions
`A → B` then `B → ε`, in that order. -/
def bnfAB : Bnf :=
  { tokens := []
    starts := [("A", 0)]
    nonterms := [⟨"A", 0, 1⟩, ⟨"B", 1, 2⟩]
    prods :=
      [⟨0, ProdAction.none, Option.none, Assoc.none, [Symbol.nonterm 1]⟩,
       ⟨1, ProdAction.none, Option.none, Assoc.none, []⟩] }

theorem testBit_one_nat (k : Nat) : Nat.testBit 1 k = decide (k = 0) := by
  cases k with
  | zero => simp
  | succ m =>
    rw [Nat.testBit_succ]
    simp

theorem div64_lt_blocksOf {i n : Nat} (h : i < n) : i / 64 < blocksOf n := by
  have h1 : (i + 64) / 64 = i / 64 + 1 := Nat.add_div_right i (by norm_num)
  have h2 : i + 64 ≤ n + 63 := by omega
  have h3 : (i + 64) / 64 ≤ (n + 63) / 64 := Nat.div_le_div_right h2
  have : blocksOf n = (n + 63) / 64 := by
    unfold blocksOf
    congr 1
  omega

theorem mem_new (numBits t : Nat) : (BitSet.new numBits).mem t = false := by
  unfold BitSet.new BitSet.mem
  rcases Nat.lt_or_ge (t / 64) (blocksOf numBits) with h | h
  · rw [List.getD_eq_getElem?_getD, List.getElem?_replicate]
    simp [h]
  · rw [List.getD_eq_getElem?_getD, List.getElem?_replicate]
    simp [Nat.not_lt.mpr h]

theorem slice_length_new (numBits : Nat) :
    (BitSet.new numBits).slice.length = blocksOf numBits := by
  simp [BitSet.new]

theorem unionBlocks_length (xs ys : List Nat) :
    (unionBlocks xs ys).1.length = xs.length := by
  induction xs generalizing ys with
  | nil => rfl
  | cons x xs ih =>
    simp only [unionBlocks, List.length_cons]
    rw [ih]

theorem getD_tail (ys : List Nat) (i : Nat) :
    ys.tail.getD i 0 = ys.getD (i + 1) 0 := by
  cases ys <;> simp

theorem unionBlocks_getD (xs ys : List Nat) (i : Nat) (h : i < xs.length) :
    (unionBlocks xs ys).1.getD i 0 = xs.getD i 0 ||| ys.getD i 0 := by
  induction xs generalizing ys i with
  | nil => simp at h
  | cons x xs ih =>
    cases i with
    | zero => cases ys <;> simp [unionBlocks]
    | succ j =>
      simp only [unionBlocks, List.getD_cons_succ]
      rw [ih _ _ (by simpa using h), getD_tail]

theorem unionBlocks_flag_false (xs ys : List Nat) :
    (unionBlocks xs ys).2 = false ↔ (unionBlocks xs ys).1 = xs := by
  induction xs generalizing ys with
  | nil => simp [unionBlocks]
  | cons x xs ih =>
    simp only [unionBlocks, Bool.or_eq_false_iff, decide_eq_false_iff_not,
      ne_eq, not_not, List.cons.injEq]
    constructor
    · rintro ⟨h1, h2⟩
      exact ⟨h1, (ih ys.tail).mp h2⟩
    · rintro ⟨h1, h2⟩
      exact ⟨h1, (ih ys.tail).mpr h2⟩

theorem unionWith_length (a b : BitSet) :
    ((a.unionWith b).1).slice.length = a.slice.length := by
  simp [BitSet.unionWith, unionBlocks_length]

theorem unionWith_flag_false (a b : BitSet) :
    (a.unionWith b).2 = false ↔ (a.unionWith b).1 = a := by
  unfold BitSet.unionWith
  simp only
  rw [unionBlocks_flag_false]
  constructor
  · intro h
    exact congrArg BitSet.mk h
  · intro h
    exact congrArg BitSet.slice h

theorem mem_unionWith (a b : BitSet) (t : Nat) (h : t / 64 < a.slice.length) :
    ((a.unionWith b).1).mem t = (a.mem t || b.mem t) := by
  unfold BitSet.unionWith BitSet.mem
  simp only
  rw [unionBlocks_getD _ _ _ h, Nat.testBit_lor]

theorem mem_unionWith_left {a b : BitSet} {t : Nat} (h : a.mem t = true) :
    ((a.unionWith b).1).mem t = true := by
  rcases Nat.lt_or_ge (t / 64) a.slice.length with hlt | hge
  · rw [mem_unionWith _ _ _ hlt, h]
    rfl
  · exfalso
    unfold BitSet.mem at h
    rw [List.getD_eq_getElem?_getD, List.getElem?_eq_none (by omega)] at h
    simp at h

theorem mem_unionWith_right {a b : BitSet} {t : Nat}
    (hlt : t / 64 < a.slice.length) (h : b.mem t = true) :
    ((a.unionWith b).1).mem t = true := by
  rw [mem_unionWith _ _ _ hlt, h, Bool.or_true]

theorem unionWith_eq_subset {a b : BitSet} (h : (a.unionWith b).1 = a)
    (t : Nat) (hlt : t / 64 < a.slice.length) (hb : b.mem t = true) :
    a.mem t = true := by
  have := mem_unionWith_right hlt hb
  rw [h] at this
  exact this

theorem getD_set_self (l : List Nat) (i : Nat) (v : Nat) (h : i < l.length) :
    (l.set i v).getD i 0 = v := by
  rw [List.getD_eq_getElem?_getD, List.getElem?_set_self h]
  rfl

theorem mem_insert (s : BitSet) (bit t : Nat) (hb : bit / 64 < s.slice.length) :
    (s.insert bit).mem t = (s.mem t || decide (bit = t)) := by
  unfold BitSet.insert BitSet.mem
  simp only
  rcases eq_or_ne (t / 64) (bit / 64) with heq | hne
  · rw [heq, getD_set_self _ _ _ hb, Nat.testBit_lor]
    congr 1
    rw [Nat.shiftLeft_eq, one_mul]
    rcases eq_or_ne (bit % 64) (t % 64) with hm | hm
    · rw [hm, Nat.testBit_two_pow_self]
      have hbt : bit = t := by omega
      simp [hbt]
    · rw [Nat.testBit_two_pow_of_ne hm]
      have hbt : bit ≠ t := by omega
      simp [hbt]
  · have hbt : bit ≠ t := by
      intro h
      exact hne (by rw [h])
    rw [List.getD_eq_getElem?_getD, List.getElem?_set_ne (by omega),
      ← List.getD_eq_getElem?_getD]
    simp [hbt]

theorem insert_length (s : BitSet) (bit : Nat) :
    (s.insert bit).slice.length = s.slice.length := by
  simp [BitSet.insert]

/-! ## Lemmas: the scan specification -/

theorem scanMem_nil (g : Nat → Nat → Prop) (nl : List Bool) (t : Nat) :
    ¬ ScanMem g nl [] t := by
  rintro ⟨pre, s, post, habs, -, -⟩
  exact absurd habs (by simp)

theorem scanMem_cons (g : Nat → Nat → Prop) (nl : List Bool) (s : Symbol)
    (σ : List Symbol) (t : Nat) :
    ScanMem g nl (s :: σ) t ↔
      s = Symbol.term t ∨ (∃ m, s = Symbol.nonterm m ∧ g m t) ∨
      (∃ m, s = Symbol.nonterm m ∧ nl.getD m false = true ∧ ScanMem g nl σ t) := by
  constructor
  · rintro ⟨pre, w, post, heq, hnp, hw⟩
    cases pre with
    | nil =>
      simp only [List.nil_append, List.cons.injEq] at heq
      rcases hw with hw | ⟨m, hm, hg⟩
      · exact Or.inl (heq.1 ▸ hw)
      · exact Or.inr (Or.inl ⟨m, heq.1 ▸ hm, hg⟩)
    | cons x pre =>
      simp only [List.cons_append, List.cons.injEq] at heq
      obtain ⟨m, hxm, hnlm⟩ := hnp x (by simp)
      refine Or.inr (Or.inr ⟨m, heq.1 ▸ hxm, hnlm, pre, w, post, heq.2, ?_, hw⟩)
      intro y hy
      exact hnp y (by simp [hy])
  · rintro (h | ⟨m, hm, hg⟩ | ⟨m, hm, hnlm, pre, w, post, heq, hnp, hw⟩)
    · exact ⟨[], s, σ, rfl, by intro y hy; simp at hy, Or.inl h⟩
    · exact ⟨[], s, σ, rfl, by intro y hy; simp at hy, Or.inr ⟨m, hm, hg⟩⟩
    · refine ⟨s :: pre, w, post, by simp [heq], ?_, hw⟩
      intro y hy
      rcases List.mem_cons.mp hy with rfl | hy
      · exact ⟨m, hm, hnlm⟩
      · exact hnp y hy

theorem scanMem_mono {g g2 : Nat → Nat → Prop} (h : ∀ m u, g m u → g2 m u)
    {nl : List Bool} {σ : List Symbol} {t : Nat} (hs : ScanMem g nl σ t) :
    ScanMem g2 nl σ t := by
  obtain ⟨pre, s, post, heq, hnp, hw⟩ := hs
  refine ⟨pre, s, post, heq, hnp, ?_⟩
  rcases hw with hw | ⟨m, hm, hg⟩
  · exact Or.inl hw
  · exact Or.inr ⟨m, hm, h m t hg⟩

theorem memRow_getD_length {cap : Nat} {first : List BitSet}
    (hrows : ∀ s ∈ first, s.slice.length = blocksOf cap) (j : Nat) :
    (first.getD j (BitSet.new cap)).slice.length = blocksOf cap := by
  rcases Nat.lt_or_ge j first.length with h | h
  · rw [List.getD_eq_getElem?_getD, List.getElem?_eq_getElem h]
    exact hrows _ (List.getElem_mem h)
  · rw [List.getD_eq_getElem?_getD, List.getElem?_eq_none (by omega)]
    exact slice_length_new cap

theorem memRow_empty_default (n t : Nat) (first : List BitSet)
    (h : first.length ≤ n) : memRow first n t = false := by
  unfold memRow
  rw [List.getD_eq_getElem?_getD, List.getElem?_eq_none (by omega)]
  exact mem_new 0 t

theorem memRow_set (first : List BitSet) (j : Nat) (v : BitSet) (n t : Nat) :
    memRow (first.set j v) n t =
      if j = n ∧ j < first.length then v.mem t else memRow first n t := by
  by_cases hcond : j = n ∧ j < first.length
  · obtain ⟨rfl, hlt⟩ := hcond
    rw [if_pos (And.intro rfl hlt)]
    unfold memRow
    rw [List.getD_eq_getElem?_getD, List.getElem?_set_self hlt]
    rfl
  · rw [if_neg hcond]
    rcases Nat.lt_or_ge j first.length with hlt | hge
    · have hne : j ≠ n := fun h => hcond ⟨h, hlt⟩
      unfold memRow
      rw [List.getD_eq_getElem?_getD, List.getElem?_set_ne hne,
        ← List.getD_eq_getElem?_getD]
    · rw [List.set_eq_of_length_le hge]

/-- Decoding of `compute_first_for_symbols` with no lookahead set: the result
holds `t` exactly when the argument buffer already held it or the
specification scan over the symbols produces it. -/
theorem mem_computeFirst (cap : Nat) (nl : List Bool) :
    ∀ (σ : List Symbol) (result : BitSet) (first : List BitSet),
      result.slice.length = blocksOf cap →
      (∀ id, Symbol.term id ∈ σ → id < cap) →
      ∀ t, t / 64 < blocksOf cap →
      ((computeFirstForSymbols result first nl σ Option.none).mem t = true ↔
        result.mem t = true ∨ ScanMem (fun m u => memRow first m u = true) nl σ t) := by
  intro σ
  induction σ with
  | nil =>
    intro result first hres hterm t ht
    simp only [computeFirstForSymbols]
    constructor
    · intro h
      exact Or.inl h
    · rintro (h | h)
      · exact h
      · exact absurd h (scanMem_nil _ _ _)
  | cons s rest ih =>
    intro result first hres hterm t ht
    cases s with
    | term id =>
      have hid : id < cap := hterm id (by simp)
      have hb : id / 64 < result.slice.length := by
        rw [hres]
        exact div64_lt_blocksOf hid
      simp only [computeFirstForSymbols]
      rw [mem_insert _ _ _ hb, scanMem_cons]
      simp only [Bool.or_eq_true, decide_eq_true_eq, Symbol.term.injEq]
      constructor
      · rintro (h | h)
        · exact Or.inl h
        · exact Or.inr (Or.inl h)
      · rintro (h | (h | ⟨m, hm, -⟩ | ⟨m, hm, -⟩))
        · exact Or.inl h
        · exact Or.inr h
        · exact absurd hm (by simp)
        · exact absurd hm (by simp)
    | nonterm id =>
      have hu : ((result.unionWith (first.getD id (BitSet.new 0))).1).mem t =
          (result.mem t || memRow first id t) := by
        rw [mem_unionWith _ _ _ (by rw [hres]; exact ht)]
        rfl
      have hulen : ((result.unionWith (first.getD id (BitSet.new 0))).1).slice.length =
          blocksOf cap := by
        rw [unionWith_length, hres]
      simp only [computeFirstForSymbols]
      by_cases hnl : nl.getD id false = true
      · rw [if_pos hnl]
        rw [ih _ first hulen (fun i hi => hterm i (by simp [hi])) t ht, hu,
          scanMem_cons]
        simp only [Bool.or_eq_true, Symbol.nonterm.injEq]
        constructor
        · rintro ((h | h) | h)
          · exact Or.inl h
          · exact Or.inr (Or.inr (Or.inl ⟨id, rfl, h⟩))
          · exact Or.inr (Or.inr (Or.inr ⟨id, rfl, hnl, h⟩))
        · rintro (h | (h | ⟨m, rfl, hg⟩ | ⟨m, rfl, hnlm, hs⟩))
          · exact Or.inl (Or.inl h)
          · exact absurd h (by simp)
          · exact Or.inl (Or.inr hg)
          · exact Or.inr hs
      · rw [if_neg hnl]
        rw [hu, scanMem_cons]
        simp only [Bool.or_eq_true, Symbol.nonterm.injEq]
        constructor
        · rintro (h | h)
          · exact Or.inl h
          · exact Or.inr (Or.inr (Or.inl ⟨id, rfl, h⟩))
        · rintro (h | (h | ⟨m, rfl, hg⟩ | ⟨m, rfl, hnlm, -⟩))
          · exact Or.inl h
          · exact absurd h (by simp)
          · exact Or.inr hg
          · exact absurd hnlm hnl

/-! ## Lemmas: derivations -/

theorem step_inv {bnf : Bnf} {σ ω : List Symbol} (h : Step bnf σ ω) :
    ∃ l r p, p ∈ bnf.prods ∧ σ = l ++ Symbol.nonterm p.nontermId :: r ∧
      ω = l ++ p.symbols ++ r := by
  cases h with
  | expand l r p hp => exact ⟨l, r, p, hp, rfl, rfl⟩

theorem step_context {bnf : Bnf} {α β : List Symbol} (l r : List Symbol)
    (h : Step bnf α β) : Step bnf (l ++ α ++ r) (l ++ β ++ r) := by
  obtain ⟨l0, r0, p, hp, rfl, rfl⟩ := step_inv h
  have := Step.expand (l ++ l0) (r0 ++ r) p hp
  simpa [List.append_assoc] using this

theorem derives_context {bnf : Bnf} {α β : List Symbol} (l r : List Symbol)
    (h : Derives bnf α β) : Derives bnf (l ++ α ++ r) (l ++ β ++ r) :=
  Relation.ReflTransGen.lift (fun x => l ++ x ++ r)
    (fun _ _ hab => step_context l r hab) h

theorem derives_prod {bnf : Bnf} {p : Production} (hp : p ∈ bnf.prods) :
    Derives bnf [Symbol.nonterm p.nontermId] p.symbols := by
  have := Step.expand [] [] p hp
  exact Relation.ReflTransGen.single (by simpa using this)

theorem derives_erase_prefix {bnf : Bnf} {nl : List Bool}
    (hnl : NullableCorrect bnf nl) :
    ∀ (pre rest : List Symbol), NullPrefix nl pre →
      (∀ s ∈ pre, SymbolWF bnf s) → Derives bnf (pre ++ rest) rest := by
  intro pre
  induction pre with
  | nil =>
    intro rest _ _
    exact Relation.ReflTransGen.refl
  | cons x pre ih =>
    intro rest hnp hwf
    obtain ⟨m, rfl, hm⟩ := hnp x (by simp)
    have hmlt : m < bnf.nonterms.length := by
      have := hwf (Symbol.nonterm m) (by simp)
      simpa [SymbolWF] using this
    have hder : Derives bnf [Symbol.nonterm m] [] := (hnl.2 m hmlt).mp hm
    have h1 : Derives bnf (Symbol.nonterm m :: (pre ++ rest)) (pre ++ rest) := by
      have := derives_context [] (pre ++ rest) hder
      simpa using this
    refine Relation.ReflTransGen.trans (by simpa using h1)
      (ih rest (fun y hy => hnp y (by simp [hy])) (fun y hy => hwf y (by simp [hy])))

theorem derives_iff_derivesN {bnf : Bnf} {α β : List Symbol} :
    Derives bnf α β ↔ ∃ n, DerivesN bnf n α β := by
  constructor
  · intro h
    induction h using Relation.ReflTransGen.head_induction_on with
    | refl => exact ⟨0, DerivesN.refl β⟩
    | head hstep _ ih =>
      obtain ⟨n, hn⟩ := ih
      exact ⟨n + 1, DerivesN.head _ _ _ _ hstep hn⟩
  · rintro ⟨n, hn⟩
    induction hn with
    | refl σ => exact Relation.ReflTransGen.refl
    | head σ ω τ n hstep _ ih => exact Relation.ReflTransGen.head hstep ih

theorem derivesN_nil {bnf : Bnf} : ∀ (n : Nat) (τ : List Symbol),
    DerivesN bnf n [] τ → τ = [] := by
  intro n
  induction n with
  | zero =>
    intro τ h
    cases h
    rfl
  | succ m ih =>
    intro τ h
    cases h with
    | head _ ω _ _ hstep hrest =>
      obtain ⟨l, r, p, -, hσ, -⟩ := step_inv hstep
      exact absurd hσ.symm (by simp)

theorem derivesN_term_head {bnf : Bnf} : ∀ (n : Nat) (u : Nat)
    (σ τ : List Symbol), DerivesN bnf n (Symbol.term u :: σ) τ →
    ∃ τ2, τ = Symbol.term u :: τ2 ∧ DerivesN bnf n σ τ2 := by
  intro n
  induction n with
  | zero =>
    intro u σ τ h
    cases h
    exact ⟨σ, rfl, DerivesN.refl σ⟩
  | succ m ih =>
    intro u σ τ h
    cases h with
    | head _ ω _ _ hstep hrest =>
      obtain ⟨l, r, p, hp, hσ, hω⟩ := step_inv hstep
      cases l with
      | nil => exact absurd (congrArg (fun xs => List.head? xs) hσ) (by simp)
      | cons x l2 =>
        simp only [List.cons_append, List.cons.injEq] at hσ
        obtain ⟨rfl, hσ2⟩ := hσ
        have hstep2 : Step bnf σ (l2 ++ p.symbols ++ r) := by
          rw [hσ2]
          exact Step.expand l2 r p hp
        have hrest2 : DerivesN bnf m (Symbol.term u :: (l2 ++ p.symbols ++ r)) τ := by
          rw [hω] at hrest
          simpa using hrest
        obtain ⟨τ2, rfl, hd⟩ := ih u _ τ hrest2
        exact ⟨τ2, rfl, DerivesN.head _ _ _ _ hstep2 hd⟩

theorem derivesN_single_nonterm {bnf : Bnf} {n : Nat} {A : Nat}
    {τ : List Symbol} (h : DerivesN bnf n [Symbol.nonterm A] τ) :
    τ = [Symbol.nonterm A] ∨
      ∃ p, p ∈ bnf.prods ∧ p.nontermId = A ∧
        ∃ n2, n2 + 1 = n ∧ DerivesN bnf n2 p.symbols τ := by
  cases h with
  | refl => exact Or.inl rfl
  | head _ ω _ m hstep hrest =>
    obtain ⟨l, r, p, hp, hσ, hω⟩ := step_inv hstep
    cases l with
    | nil =>
      simp only [List.nil_append, List.cons.injEq, Symbol.nonterm.injEq] at hσ
      obtain ⟨hA, hr⟩ := hσ
      refine Or.inr ⟨p, hp, hA.symm, m, rfl, ?_⟩
      rw [hω, ← hr] at hrest
      simpa using hrest
    | cons x l2 =>
      simp only [List.cons_append, List.cons.injEq] at hσ
      exact absurd hσ.2.symm (by simp)

theorem derivesN_split {bnf : Bnf} : ∀ (n : Nat) (α β τ : List Symbol),
    DerivesN bnf n (α ++ β) τ →
    ∃ n1 n2 τ1 τ2, n1 + n2 = n ∧ τ = τ1 ++ τ2 ∧
      DerivesN bnf n1 α τ1 ∧ DerivesN bnf n2 β τ2 := by
  intro n
  induction n with
  | zero =>
    intro α β τ h
    cases h
    exact ⟨0, 0, α, β, rfl, rfl, DerivesN.refl α, DerivesN.refl β⟩
  | succ m ih =>
    intro α β τ h
    cases h with
    | head _ ω _ _ hstep hrest =>
      obtain ⟨l, r, p, hp, hσ, hω⟩ := step_inv hstep
      rcases List.append_eq_append_iff.mp hσ with ⟨a2, hl, hβ⟩ | ⟨c2, hα, hcr⟩
      · -- the rewritten nonterminal lies inside β
        have hstep2 : Step bnf β (a2 ++ p.symbols ++ r) := by
          rw [hβ]
          exact Step.expand a2 r p hp
        have hrest2 : DerivesN bnf m (α ++ (a2 ++ p.symbols ++ r)) τ := by
          rw [hω, hl] at hrest
          simpa [List.append_assoc] using hrest
        obtain ⟨n1, n2, τ1, τ2, hsum, rfl, hd1, hd2⟩ := ih _ _ _ hrest2
        exact ⟨n1, n2 + 1, τ1, τ2, by omega, rfl, hd1,
          DerivesN.head _ _ _ _ hstep2 hd2⟩
      · cases c2 with
        | nil =>
          -- the boundary case: β itself starts with the nonterminal
          simp only [List.append_nil] at hα
          simp only [List.nil_append] at hcr
          have hstep2 : Step bnf β (p.symbols ++ r) := by
            rw [← hcr]
            have := Step.expand [] r p hp
            simpa using this
          have hrest2 : DerivesN bnf m (α ++ (p.symbols ++ r)) τ := by
            rw [hω, ← hα] at hrest
            simpa [List.append_assoc] using hrest
          obtain ⟨n1, n2, τ1, τ2, hsum, rfl, hd1, hd2⟩ := ih _ _ _ hrest2
          exact ⟨n1, n2 + 1, τ1, τ2, by omega, rfl, hd1,
            DerivesN.head _ _ _ _ hstep2 hd2⟩
        | cons y c2 =>
          -- the rewritten nonterminal lies inside α
          simp only [List.cons_append, List.cons.injEq] at hcr
          obtain ⟨rfl, hr⟩ := hcr
          have hstep2 : Step bnf α (l ++ p.symbols ++ c2) := by
            rw [hα]
            exact Step.expand l c2 p hp
          have hrest2 : DerivesN bnf m ((l ++ p.symbols ++ c2) ++ β) τ := by
            rw [hω, hr] at hrest
            simpa [List.append_assoc] using hrest
          obtain ⟨n1, n2, τ1, τ2, hsum, rfl, hd1, hd2⟩ := ih _ _ _ hrest2
          exact ⟨n1 + 1, n2, τ1, τ2, by omega, rfl,
            DerivesN.head _ _ _ _ hstep2 hd1, hd2⟩

/-! ## Lemmas: the FIRST pass and loop -/

theorem firstPass_eq_foldl (cap : Nat) (prods : List Production)
    (nl : List Bool) (first : List BitSet) :
    List.foldl (firstPassStep cap nl) (first, false) prods =
      firstPass cap prods nl first :=
  rfl

theorem set_getD_eq {α : Type} : ∀ (l : List α) (j : Nat) (d : α),
    l.set j (l.getD j d) = l := by
  intro l
  induction l with
  | nil => intro j d; rfl
  | cons x xs ih =>
    intro j d
    cases j with
    | zero => rfl
    | succ i =>
      simp only [List.set_cons_succ, List.getD_cons_succ]
      rw [ih]

theorem memRow_eq_getD_mem (first : List BitSet) (n t : Nat)
    (h : n < first.length) (d : BitSet) :
    memRow first n t = (first.getD n d).mem t := by
  unfold memRow
  rw [List.getD_eq_getElem?_getD, List.getD_eq_getElem?_getD,
    List.getElem?_eq_getElem h]
  rfl

theorem memRow_replicate (k cap n t : Nat) :
    memRow (List.replicate k (BitSet.new cap)) n t = false := by
  rcases Nat.lt_or_ge n k with h | h
  · rw [memRow_eq_getD_mem _ _ _ (by simpa using h) (BitSet.new cap)]
    rw [List.getD_eq_getElem?_getD, List.getElem?_replicate, if_pos h]
    exact mem_new cap t
  · exact memRow_empty_default n t _ (by simpa using h)

theorem scanMem_mono_at {g g2 : Nat → Nat → Prop} {t : Nat}
    (h : ∀ m, g m t → g2 m t) {nl : List Bool} {σ : List Symbol}
    (hs : ScanMem g nl σ t) : ScanMem g2 nl σ t := by
  obtain ⟨pre, s, post, heq, hnp, hw⟩ := hs
  refine ⟨pre, s, post, heq, hnp, ?_⟩
  rcases hw with hw | ⟨m, hm, hg⟩
  · exact Or.inl hw
  · exact Or.inr ⟨m, hm, h m hg⟩

theorem firstPassStep_rows {cap : Nat} {nl : List Bool}
    {acc : List BitSet × Bool} (p : Production)
    (h : ∀ s ∈ acc.1, s.slice.length = blocksOf cap) :
    ∀ s ∈ (firstPassStep cap nl acc p).1, s.slice.length = blocksOf cap := by
  intro s hs
  unfold firstPassStep at hs
  simp only at hs
  rcases List.mem_or_eq_of_mem_set hs with hs | rfl
  · exact h s hs
  · rw [unionWith_length]
    exact memRow_getD_length h _

theorem firstPassStep_length {cap : Nat} {nl : List Bool}
    {acc : List BitSet × Bool} (p : Production) :
    (firstPassStep cap nl acc p).1.length = acc.1.length := by
  unfold firstPassStep
  simp

theorem foldl_firstPassStep_rows (cap : Nat) (nl : List Bool) :
    ∀ (prods : List Production) (acc : List BitSet × Bool),
      (∀ s ∈ acc.1, s.slice.length = blocksOf cap) →
      (∀ s ∈ (List.foldl (firstPassStep cap nl) acc prods).1,
        s.slice.length = blocksOf cap) ∧
      (List.foldl (firstPassStep cap nl) acc prods).1.length = acc.1.length := by
  intro prods
  induction prods with
  | nil => intro acc h; exact ⟨h, rfl⟩
  | cons p ps ih =>
    intro acc h
    rw [List.foldl_cons]
    obtain ⟨h1, h2⟩ := ih (firstPassStep cap nl acc p) (firstPassStep_rows p h)
    exact ⟨h1, by rw [h2, firstPassStep_length]⟩

theorem foldl_firstPassStep_mono (cap : Nat) (nl : List Bool) :
    ∀ (prods : List Production) (acc : List BitSet × Bool) (n t : Nat),
      memRow acc.1 n t = true →
      memRow (List.foldl (firstPassStep cap nl) acc prods).1 n t = true := by
  intro prods
  induction prods with
  | nil => intro acc n t h; exact h
  | cons p ps ih =>
    intro acc n t h
    rw [List.foldl_cons]
    apply ih
    unfold firstPassStep
    simp only
    rw [memRow_set]
    by_cases hc : p.nontermId = n ∧ p.nontermId < acc.1.length
    · rw [if_pos hc]
      apply mem_unionWith_left
      rw [← memRow_eq_getD_mem _ _ _ hc.2 (BitSet.new cap), hc.1]
      exact h
    · rw [if_neg hc]
      exact h

theorem foldl_firstPassStep_sub (cap : Nat) (nl : List Bool)
    (g : Nat → Nat → Prop) :
    ∀ (prods : List Production) (acc : List BitSet × Bool),
      (∀ p ∈ prods, ∀ id, Symbol.term id ∈ p.symbols → id < cap) →
      (∀ p ∈ prods, ∀ t, t < cap → ScanMem g nl p.symbols t → g p.nontermId t) →
      (∀ s ∈ acc.1, s.slice.length = blocksOf cap) →
      (∀ n t, t < cap → memRow acc.1 n t = true → g n t) →
      ∀ n t, t < cap →
        memRow (List.foldl (firstPassStep cap nl) acc prods).1 n t = true →
        g n t := by
  intro prods
  induction prods with
  | nil => intro acc _ _ _ hsub n t ht h; exact hsub n t ht h
  | cons p ps ih =>
    intro acc hterm hclosed hrows hsub n t ht h
    rw [List.foldl_cons] at h
    refine ih (firstPassStep cap nl acc p)
      (fun q hq => hterm q (by simp [hq]))
      (fun q hq => hclosed q (by simp [hq]))
      (firstPassStep_rows p hrows) ?_ n t ht h
    intro n2 t2 ht2 hmem
    unfold firstPassStep at hmem
    simp only at hmem
    rw [memRow_set] at hmem
    by_cases hc : p.nontermId = n2 ∧ p.nontermId < acc.1.length
    · rw [if_pos hc] at hmem
      rw [mem_unionWith _ _ _ (by
        rw [memRow_getD_length hrows]
        exact div64_lt_blocksOf ht2)] at hmem
      rcases Bool.or_eq_true_iff.mp hmem with hmem | hmem
      · refine hsub n2 t2 ht2 ?_
        rw [← hc.1, memRow_eq_getD_mem _ _ _ hc.2 (BitSet.new cap)]
        exact hmem
      · rw [mem_computeFirst cap nl p.symbols _ acc.1 (slice_length_new cap)
          (hterm p (by simp)) t2 (div64_lt_blocksOf ht2)] at hmem
        rcases hmem with hmem | hmem
        · rw [mem_new] at hmem
          exact absurd hmem (by simp)
        · refine hc.1 ▸ hclosed p (by simp) t2 ht2 ?_
          exact scanMem_mono_at (fun m hm => hsub m t2 ht2 hm) hmem
    · rw [if_neg hc] at hmem
      exact hsub n2 t2 ht2 hmem

theorem foldl_firstPassStep_flag_mono (cap : Nat) (nl : List Bool) :
    ∀ (prods : List Production) (acc : List BitSet × Bool), acc.2 = true →
      (List.foldl (firstPassStep cap nl) acc prods).2 = true := by
  intro prods
  induction prods with
  | nil => intro acc h; exact h
  | cons p ps ih =>
    intro acc h
    rw [List.foldl_cons]
    refine ih _ ?_
    unfold firstPassStep
    simp [h]

theorem foldl_firstPassStep_flag_false (cap : Nat) (nl : List Bool) :
    ∀ (prods : List Production) (first : List BitSet),
      (List.foldl (firstPassStep cap nl) (first, false) prods).2 = false →
      (List.foldl (firstPassStep cap nl) (first, false) prods).1 = first ∧
      ∀ p ∈ prods,
        ((first.getD p.nontermId (BitSet.new cap)).unionWith
          (computeFirstForSymbols (BitSet.new cap) first nl p.symbols
            Option.none)).2 = false := by
  intro prods
  induction prods with
  | nil =>
    intro first _
    exact ⟨rfl, by intro p hp; simp at hp⟩
  | cons p ps ih =>
    intro first h
    rw [List.foldl_cons] at h
    by_cases hu : ((first.getD p.nontermId (BitSet.new cap)).unionWith
        (computeFirstForSymbols (BitSet.new cap) first nl p.symbols
          Option.none)).2 = true
    · exfalso
      have hstep : (firstPassStep cap nl (first, false) p).2 = true := by
        unfold firstPassStep
        simpa using hu
      have := foldl_firstPassStep_flag_mono cap nl ps _ hstep
      rw [this] at h
      exact absurd h (by simp)
    · rw [Bool.not_eq_true] at hu
      have hval : firstPassStep cap nl (first, false) p = (first, false) := by
        unfold firstPassStep
        simp only
        have h1 := (unionWith_flag_false (first.getD p.nontermId (BitSet.new cap))
          (computeFirstForSymbols (BitSet.new cap) first nl p.symbols
            Option.none)).mp hu
        rw [h1, set_getD_eq, hu]
        simp
      rw [hval] at h
      rw [List.foldl_cons, hval]
      obtain ⟨h1, h2⟩ := ih first h
      refine ⟨h1, ?_⟩
      intro q hq
      rcases List.mem_cons.mp hq with rfl | hq
      · exact hu
      · exact h2 q hq

theorem firstPass_flag_false_closed (cap : Nat) (nl : List Bool)
    (prods : List Production) (first : List BitSet)
    (hrows : ∀ s ∈ first, s.slice.length = blocksOf cap)
    (hterm : ∀ p ∈ prods, ∀ id, Symbol.term id ∈ p.symbols → id < cap)
    (h : (firstPass cap prods nl first).2 = false) :
    ∀ p ∈ prods, ∀ t, t < cap →
      ScanMem (fun m u => memRow first m u = true) nl p.symbols t →
      memRow first p.nontermId t = true := by
  obtain ⟨-, hall⟩ := foldl_firstPassStep_flag_false cap nl prods first h
  intro p hp t ht hscan
  have hu := hall p hp
  have hbuf : (computeFirstForSymbols (BitSet.new cap) first nl p.symbols
      Option.none).mem t = true := by
    rw [mem_computeFirst cap nl p.symbols _ first (slice_length_new cap)
      (hterm p hp) t (div64_lt_blocksOf ht)]
    exact Or.inr hscan
  have hsub := unionWith_eq_subset ((unionWith_flag_false _ _).mp hu) t
    (by rw [memRow_getD_length hrows]; exact div64_lt_blocksOf ht) hbuf
  rcases Nat.lt_or_ge p.nontermId first.length with hlt | hge
  · rw [memRow_eq_getD_mem _ _ _ hlt (BitSet.new cap)]
    exact hsub
  · exfalso
    rw [List.getD_eq_getElem?_getD, List.getElem?_eq_none (by omega)] at hsub
    rw [show (Option.none.getD (BitSet.new cap)) = BitSet.new cap from rfl,
      mem_new] at hsub
    exact absurd hsub (by simp)

theorem genFirstGo_sub (cap : Nat) (prods : List Production) (nl : List Bool)
    (g : Nat → Nat → Prop)
    (hterm : ∀ p ∈ prods, ∀ id, Symbol.term id ∈ p.symbols → id < cap)
    (hclosed : ∀ p ∈ prods, ∀ t, t < cap → ScanMem g nl p.symbols t →
      g p.nontermId t) :
    ∀ (fuel : Nat) (cur F : List BitSet),
      (∀ s ∈ cur, s.slice.length = blocksOf cap) →
      (∀ n t, t < cap → memRow cur n t = true → g n t) →
      genFirstGo cap prods nl fuel cur = some F →
      ∀ n t, t < cap → memRow F n t = true → g n t := by
  intro fuel
  induction fuel with
  | zero => intro cur F _ _ h; exact absurd h (by simp [genFirstGo])
  | succ m ih =>
    intro cur F hrows hsub h
    rw [genFirstGo] at h
    rcases hpass : firstPass cap prods nl cur with ⟨f2, changed⟩
    rw [hpass] at h
    have hsub2 : ∀ n t, t < cap → memRow f2 n t = true → g n t := by
      have := foldl_firstPassStep_sub cap nl g prods (cur, false) hterm hclosed
        hrows hsub
      intro n t ht hm
      refine this n t ht ?_
      have : f2 = (firstPass cap prods nl cur).1 := by rw [hpass]
      rw [this] at hm
      exact hm
    have hrows2 : ∀ s ∈ f2, s.slice.length = blocksOf cap := by
      have := (foldl_firstPassStep_rows cap nl prods (cur, false) hrows).1
      intro s hs
      refine this s ?_
      have : f2 = (firstPass cap prods nl cur).1 := by rw [hpass]
      rw [this] at hs
      exact hs
    cases changed with
    | true => exact ih f2 F hrows2 hsub2 h
    | false =>
      cases h
      exact hsub2

theorem genFirstGo_fix (cap : Nat) (prods : List Production) (nl : List Bool) :
    ∀ (fuel : Nat) (cur F : List BitSet),
      genFirstGo cap prods nl fuel cur = some F →
      (∀ s ∈ cur, s.slice.length = blocksOf cap) →
      (firstPass cap prods nl F).2 = false ∧
      (∀ s ∈ F, s.slice.length = blocksOf cap) := by
  intro fuel
  induction fuel with
  | zero => intro cur F h; exact absurd h (by simp [genFirstGo])
  | succ m ih =>
    intro cur F h hrows
    rw [genFirstGo] at h
    rcases hpass : firstPass cap prods nl cur with ⟨f2, changed⟩
    rw [hpass] at h
    have hrows2 : ∀ s ∈ f2, s.slice.length = blocksOf cap := by
      have h2 := (foldl_firstPassStep_rows cap nl prods (cur, false) hrows).1
      rw [firstPass_eq_foldl, hpass] at h2
      exact h2
    cases changed with
    | true => exact ih f2 F h hrows2
    | false =>
      have hF : f2 = F := Option.some.inj h
      subst hF
      have hflag : (firstPass cap prods nl cur).2 = false := by rw [hpass]
      have hcur : f2 = cur := by
        have h2 := (foldl_firstPassStep_flag_false cap nl prods cur
          (by rw [firstPass_eq_foldl]; exact hflag)).1
        rw [firstPass_eq_foldl, hpass] at h2
        exact h2
      constructor
      · rw [hcur, hpass]
      · exact hrows2

/-! ## Lemmas: FIRST soundness and completeness against derivations -/

theorem firstSpec_closed {bnf : Bnf} {nl : List Bool} (hwf : BnfWF bnf)
    (hnl : NullableCorrect bnf nl) :
    ∀ p ∈ bnf.prods, ∀ t,
      ScanMem (fun m u => FirstSpecMem bnf m u) nl p.symbols t →
      FirstSpecMem bnf p.nontermId t := by
  rintro p hp t ⟨pre, s, post, heq, hnp, hw⟩
  have h1 : Derives bnf [Symbol.nonterm p.nontermId] (pre ++ s :: post) :=
    heq ▸ derives_prod hp
  have hpre : Derives bnf (pre ++ s :: post) (s :: post) :=
    derives_erase_prefix hnl pre (s :: post) hnp
      (fun y hy => (hwf p hp).2 y (by rw [heq]; exact List.mem_append_left _ hy))
  rcases hw with rfl | ⟨m, rfl, γ0, hder⟩
  · exact ⟨post, Relation.ReflTransGen.trans h1 hpre⟩
  · have h3 : Derives bnf (Symbol.nonterm m :: post)
        (Symbol.term t :: (γ0 ++ post)) := by
      have := derives_context [] post hder
      simpa using this
    exact ⟨γ0 ++ post,
      Relation.ReflTransGen.trans (Relation.ReflTransGen.trans h1 hpre) h3⟩

theorem scan_of_derivesN {bnf : Bnf} {nl : List Bool} {F : List BitSet}
    (hwf : BnfWF bnf) (hnl : NullableCorrect bnf nl)
    (hclosed : ∀ p ∈ bnf.prods, ∀ t, t < bnf.tokens.length →
      ScanMem (fun m u => memRow F m u = true) nl p.symbols t →
      memRow F p.nontermId t = true) :
    ∀ n : Nat, ∀ σ : List Symbol, (∀ s ∈ σ, SymbolWF bnf s) →
      ∀ n2 ≤ n, ∀ t, t < bnf.tokens.length → ∀ γ,
      DerivesN bnf n2 σ (Symbol.term t :: γ) →
      ScanMem (fun m u => memRow F m u = true) nl σ t := by
  intro n
  induction n using Nat.strong_induction_on with
  | _ n ihn =>
    intro σ
    induction σ with
    | nil =>
      intro _ n2 _ t _ γ h
      exact absurd (derivesN_nil _ _ h) (by simp)
    | cons s σ2 ihσ =>
      intro hwfσ n2 hn2 t ht γ h
      cases s with
      | term u =>
        obtain ⟨τ2, hτ, -⟩ := derivesN_term_head _ _ _ _ h
        have hut : u = t := by
          injection hτ with h1 h2
          injection h1 with h1
          exact h1.symm
        rw [scanMem_cons]
        exact Or.inl (by rw [hut])
      | nonterm A =>
        have h2 : DerivesN bnf n2 ([Symbol.nonterm A] ++ σ2)
            (Symbol.term t :: γ) := by simpa using h
        obtain ⟨n1, n2b, τ1, τ2, hsum, hτ, hd1, hd2⟩ := derivesN_split _ _ _ _ h2
        cases τ1 with
        | nil =>
          have hτ2 : τ2 = Symbol.term t :: γ := by simpa using hτ.symm
          have hA : A < bnf.nonterms.length := by
            have := hwfσ (Symbol.nonterm A) (by simp)
            simpa [SymbolWF] using this
          have hnlA : nl.getD A false = true := by
            refine (hnl.2 A hA).mpr ?_
            exact derives_iff_derivesN.mpr ⟨n1, hd1⟩
          have hscan2 := ihσ (fun y hy => hwfσ y (by simp [hy])) n2b
            (by omega) t ht γ (hτ2 ▸ hd2)
          rw [scanMem_cons]
          exact Or.inr (Or.inr ⟨A, rfl, hnlA, hscan2⟩)
        | cons x τ1b =>
          have hx : x = Symbol.term t ∧ γ = τ1b ++ τ2 := by
            rw [List.cons_append] at hτ
            injection hτ with h1 h2
            exact ⟨h1.symm, h2⟩
          rcases derivesN_single_nonterm hd1 with heq | ⟨p, hp, hpA, n3, hn3, hd3⟩
          · rw [hx.1] at heq
            exact absurd heq (by simp)
          · have hn3lt : n3 < n := by omega
            have hd3b : DerivesN bnf n3 p.symbols (Symbol.term t :: τ1b) := by
              rw [← hx.1]
              exact hd3
            have hscan := ihn n3 hn3lt p.symbols ((hwf p hp).2) n3 le_rfl t ht
              τ1b hd3b
            have hmem := hclosed p hp t ht hscan
            rw [scanMem_cons]
            exact Or.inr (Or.inl ⟨A, rfl, hpA ▸ hmem⟩)

/-- Claim C7, confirmed.  For every BNF and any nullable vector that is
correct for it (one entry per nonterminal, true exactly for the
nonterminals deriving ε), whenever the `gen_first` loop exits — with any
amount of fuel — the table it returns satisfies, for every nonterminal `n`
and token `t`: `t ∈ first[n]` iff `n` derives a sentential form beginning
with `t`.  The proof goes through the least-fixpoint reading of the scan of
`compute_first_for_symbols`: at exit the table is closed under the scan
(the change flag of `union_with` was false for a whole pass), every bit it
holds is justified against any scan-closed family (pass induction), the
derivation-FIRST family is scan-closed (soundness), and every
derivation-reachable leading token is produced by the scan against a
scan-closed table (completeness, by induction on derivation length). -/
theorem c7_gen_first_correct (bnf : Bnf) (nl : List Bool) (fuel : Nat)
    (F : List BitSet) (hwf : BnfWF bnf) (hnl : NullableCorrect bnf nl)
    (h : genFirst bnf nl fuel = some F) :
    ∀ n, n < bnf.nonterms.length → ∀ t, t < bnf.tokens.length →
      (memRow F n t = true ↔ FirstSpecMem bnf n t) := by
  have hterm : ∀ p ∈ bnf.prods, ∀ id, Symbol.term id ∈ p.symbols →
      id < bnf.tokens.length := by
    intro p hp id hid
    have := (hwf p hp).2 _ hid
    simpa [SymbolWF] using this
  have hrows0 : ∀ s ∈ List.replicate bnf.nonterms.length
      (BitSet.new bnf.tokens.length),
      s.slice.length = blocksOf bnf.tokens.length := by
    intro s hs
    rw [List.eq_of_mem_replicate hs]
    exact slice_length_new _
  have hsound := genFirstGo_sub bnf.tokens.length bnf.prods nl
    (fun m u => FirstSpecMem bnf m u) hterm
    (fun p hp t ht hs => firstSpec_closed hwf hnl p hp t hs)
    fuel _ F hrows0
    (fun n t ht hm => absurd hm (by rw [memRow_replicate]; simp))
    h
  obtain ⟨hfix, hrowsF⟩ := genFirstGo_fix bnf.tokens.length bnf.prods nl
    fuel _ F h hrows0
  have hclosedF := firstPass_flag_false_closed bnf.tokens.length nl bnf.prods
    F hrowsF hterm hfix
  intro n hn t ht
  constructor
  · exact fun hm => hsound n t ht hm
  · rintro ⟨γ, hder⟩
    obtain ⟨k, hk⟩ := derives_iff_derivesN.mp hder
    have hscan := scan_of_derivesN hwf hnl hclosedF k [Symbol.nonterm n]
      (by
        intro s hs
        rcases List.mem_singleton.mp hs with rfl
        simpa [SymbolWF] using hn)
      k le_rfl t ht γ hk
    rw [scanMem_cons] at hscan
    rcases hscan with h1 | ⟨m, hm, hg⟩ | ⟨m, hm, hnlm, hs⟩
    · exact absurd h1 (by simp)
    · injection hm with hm
      rw [hm]
      exact hg
    · exact absurd hs (scanMem_nil _ _ _)

/-- Witness for claim C7: the theorem applied to the concrete BNF `bnfW`
(`A → a | ε`), whose correct nullable vector is `[true]`, whose `gen_first`
exits with fuel 2 returning the table `[{a}]`. -/
theorem c7_gen_first_correct_witness :
    memRow [BitSet.mk [1]] 0 0 = true ↔ FirstSpecMem bnfW 0 0 := by
  have hwf : BnfWF bnfW := by
    intro p hp
    rcases List.mem_cons.mp hp with rfl | hp
    · refine ⟨by simp [bnfW], ?_⟩
      intro s hs
      rcases List.mem_singleton.mp hs with rfl
      simp [SymbolWF, bnfW]
    · rcases List.mem_singleton.mp hp with rfl
      refine ⟨by simp [bnfW], ?_⟩
      intro s hs
      simp at hs
  have hnl : NullableCorrect bnfW [true] := by
    refine ⟨by simp [bnfW], ?_⟩
    intro n hn
    have hn0 : n = 0 := by
      simp [bnfW] at hn
      omega
    subst hn0
    constructor
    · intro _
      refine Relation.ReflTransGen.single ?_
      have := @Step.expand bnfW [] []
        ⟨0, ProdAction.none, Option.none, Assoc.none, []⟩ (by decide)
      simpa using this
    · intro _
      rfl
  exact c7_gen_first_correct bnfW [true] 2 [BitSet.mk [1]] hwf hnl (by decide)
    0 (by decide) 0 (by decide)

/-! ## Lemmas: the grammar constructor -/

theorem dedup_length_eq_iff (l : List String) :
    l.dedup.length = l.length ↔ l.Nodup := by
  constructor
  · intro h
    have hsub := List.dedup_sublist l
    rw [← hsub.eq_of_length h]
    exact List.nodup_dedup l
  · intro h
    rw [List.dedup_eq_self.mpr h]

theorem indexMapInsert_keys (m : List (String × RuleInner)) (k : String)
    (v : RuleInner) :
    (indexMapInsert m k v).map Prod.fst =
      if k ∈ m.map Prod.fst then m.map Prod.fst
      else m.map Prod.fst ++ [k] := by
  unfold indexMapInsert
  by_cases h : k ∈ m.map Prod.fst
  · rw [if_pos (by simpa using h), if_pos h, List.map_map]
    refine List.map_congr_left ?_
    intro kv _
    by_cases hk : kv.1 = k
    · simp [hk]
    · simp [hk]
  · rw [if_neg (by simpa using h), if_neg h]
    simp

theorem innerFold_keys_toFinset :
    ∀ (l m : List (String × RuleInner)),
      ((List.foldl (fun m kv => indexMapInsert m kv.1 kv.2) m l).map
        Prod.fst).toFinset =
      (m.map Prod.fst).toFinset ∪ (l.map Prod.fst).toFinset := by
  intro l
  induction l with
  | nil => intro m; simp
  | cons kv l2 ih =>
    intro m
    rw [List.foldl_cons, ih]
    rw [indexMapInsert_keys]
    by_cases h : kv.1 ∈ m.map Prod.fst
    · rw [if_pos h]
      have : kv.1 ∈ (m.map Prod.fst).toFinset := List.mem_toFinset.mpr h
      ext x
      simp only [Finset.mem_union, List.mem_toFinset, List.map_cons,
        List.mem_cons]
      constructor
      · rintro (hx | hx)
        · exact Or.inl hx
        · exact Or.inr (Or.inr hx)
      · rintro (hx | rfl | hx)
        · exact Or.inl hx
        · exact Or.inl h
        · exact Or.inr hx
    · rw [if_neg h]
      ext x
      simp only [Finset.mem_union, List.mem_toFinset, List.map_cons,
        List.mem_cons, List.mem_append, List.mem_singleton]
      tauto

theorem innerFold_keys_nodup :
    ∀ (l m : List (String × RuleInner)), (m.map Prod.fst).Nodup →
      ((List.foldl (fun m kv => indexMapInsert m kv.1 kv.2) m l).map
        Prod.fst).Nodup := by
  intro l
  induction l with
  | nil => intro m h; exact h
  | cons kv l2 ih =>
    intro m h
    rw [List.foldl_cons]
    refine ih _ ?_
    rw [indexMapInsert_keys]
    by_cases hk : kv.1 ∈ m.map Prod.fst
    · rw [if_pos hk]
      exact h
    · rw [if_neg hk]
      simp [List.nodup_append, h, hk]

theorem indexMapOfList_length (l : List (String × RuleInner)) :
    (indexMapOfList l).length = (l.map Prod.fst).toFinset.card := by
  have h1 : (indexMapOfList l).length =
      ((indexMapOfList l).map Prod.fst).length := by simp
  have h2 := innerFold_keys_nodup l [] (by simp)
  have h3 := innerFold_keys_toFinset l []
  rw [h1]
  unfold indexMapOfList
  rw [← List.dedup_eq_self.mpr h2]
  rw [← List.card_toFinset, h3]
  simp

theorem innerFold_fresh :
    ∀ (l m : List (String × RuleInner)),
      (m.map Prod.fst ++ l.map Prod.fst).Nodup →
      List.foldl (fun m kv => indexMapInsert m kv.1 kv.2) m l = m ++ l := by
  intro l
  induction l with
  | nil => intro m _; simp
  | cons kv l2 ih =>
    intro m h
    rw [List.foldl_cons]
    have hnotin : kv.1 ∉ m.map Prod.fst := by
      simp only [List.map_cons, List.nodup_append] at h
      intro hc
      exact h.2.2 hc (by simp)
    have hstep : indexMapInsert m kv.1 kv.2 = m ++ [kv] := by
      unfold indexMapInsert
      rw [if_neg (by simpa using hnotin)]
    rw [hstep]
    have h2 : ((m ++ [kv]).map Prod.fst ++ l2.map Prod.fst).Nodup := by
      simp only [List.map_cons] at h
      simpa [List.append_assoc] using h
    rw [ih _ h2]
    simp

/-- Claim C10, confirmed.  The `grammar(tokens, starts, rules)` constructor
fails exactly when two rules share a name (collecting into the `IndexMap`
shrinks the list); otherwise it returns the `Grammar` with tokens, starts
and rules in declaration order, performing no other check — validation is
deferred to `Grammar::validate`. -/
theorem c10_grammar_ctor (tokens start : List String)
    (rules : List (String × RuleInner)) :
    ((rules.map Prod.fst).Nodup →
      grammar tokens start rules = Except.ok ⟨tokens, start, rules⟩) ∧
    (¬ (rules.map Prod.fst).Nodup →
      grammar tokens start rules =
        Except.error "duplicate rule found in rule list") := by
  constructor
  · intro h
    have heq : indexMapOfList rules = rules := by
      unfold indexMapOfList
      have := innerFold_fresh rules [] (by simpa using h)
      simpa using this
    unfold grammar
    simp [heq]
  · intro h
    have hlt : (indexMapOfList rules).length ≠ rules.length := by
      rw [indexMapOfList_length]
      intro hc
      apply h
      have hc2 : (rules.map Prod.fst).dedup.length =
          (rules.map Prod.fst).length := by
        rw [← List.card_toFinset, hc]
        simp
      exact (dedup_length_eq_iff _).mp hc2
    unfold grammar
    simp [hlt]

/-- Witness for claim C10: a fresh rule list is accepted verbatim, a
duplicated rule name is rejected. -/
theorem c10_grammar_ctor_witness :
    grammar ["a"] ["S"] [("S", RuleInner.sym "a")] =
      Except.ok ⟨["a"], ["S"], [("S", RuleInner.sym "a")]⟩ ∧
    grammar ["a"] ["S"] [("S", RuleInner.sym "a"), ("S", RuleInner.sym "b")] =
      Except.error "duplicate rule found in rule list" := by
  constructor
  · exact (c10_grammar_ctor ["a"] ["S"] [("S", RuleInner.sym "a")]).1
      (by simp)
  · exact (c10_grammar_ctor ["a"] ["S"]
      [("S", RuleInner.sym "a"), ("S", RuleInner.sym "b")]).2 (by simp)

/-! ## Lemmas: Grammar::validate -/

theorem checkStarts_ok_iff (rn : Finset String) :
    ∀ l, checkStarts rn l = Except.ok () ↔ ∀ s ∈ l, s ∈ rn := by
  intro l
  induction l with
  | nil => simp [checkStarts]
  | cons s rest ih =>
    by_cases h : s ∈ rn
    · simp only [checkStarts, if_pos h, ih]
      constructor
      · intro hall y hy
        rcases List.mem_cons.mp hy with rfl | hy
        · exact h
        · exact hall y hy
      · intro hall y hy
        exact hall y (by simp [hy])
    · simp only [checkStarts, if_neg h]
      constructor
      · intro hc
        exact absurd hc (by simp)
      · intro hc
        exact absurd (hc s (by simp)) h

theorem checkStarts_error (rn : Finset String) :
    ∀ l e, checkStarts rn l = Except.error e →
      ∃ s ∈ l, s ∉ rn ∧ e = "start rule \x27" ++ s ++ "\x27 is undefined" := by
  intro l
  induction l with
  | nil =>
    intro e h
    exact absurd h (by simp [checkStarts])
  | cons s rest ih =>
    intro e h
    by_cases hs : s ∈ rn
    · simp only [checkStarts, if_pos hs] at h
      obtain ⟨s2, hs2, hns2, he⟩ := ih e h
      exact ⟨s2, by simp [hs2], hns2, he⟩
    · simp only [checkStarts, if_neg hs] at h
      injection h with h
      exact ⟨s, by simp, hs, h.symm⟩

mutual

theorem ruleValidate_ok_iff (names : Finset String) (namesL : List String)
    (hmem : ∀ s, s ∈ names ↔ s ∈ namesL) :
    ∀ r : RuleInner, (RuleInner.validate names r = Except.ok () ↔
      RuleInner.usesUndef namesL r = false)
  | RuleInner.sym s => by
    have hc : (namesL.contains s) = decide (s ∈ namesL) := by
      simp [List.contains]
    by_cases h : s ∈ names
    · have h2 : s ∈ namesL := (hmem s).mp h
      simp [RuleInner.validate, RuleInner.usesUndef, h, hc, h2]
    · have h2 : s ∉ namesL := fun hx => h ((hmem s).mpr hx)
      simp [RuleInner.validate, RuleInner.usesUndef, h, hc, h2]
  | RuleInner.seq rs => by
    simp only [RuleInner.validate, RuleInner.usesUndef]
    exact validateRuleList_ok_iff names namesL hmem rs
  | RuleInner.orR rs => by
    simp only [RuleInner.validate, RuleInner.usesUndef]
    exact validateRuleList_ok_iff names namesL hmem rs
  | RuleInner.many r => by
    simp only [RuleInner.validate, RuleInner.usesUndef]
    exact ruleValidate_ok_iff names namesL hmem r
  | RuleInner.many1 r => by
    simp only [RuleInner.validate, RuleInner.usesUndef]
    exact ruleValidate_ok_iff names namesL hmem r
  | RuleInner.option r => by
    simp only [RuleInner.validate, RuleInner.usesUndef]
    exact ruleValidate_ok_iff names namesL hmem r
  | RuleInner.sepBy sep r => by
    simp only [RuleInner.validate, RuleInner.usesUndef]
    cases hsep : RuleInner.validate names sep with
    | ok u =>
      cases u
      have hu : RuleInner.usesUndef namesL sep = false :=
        (ruleValidate_ok_iff names namesL hmem sep).mp hsep
      rw [hu]
      simpa using ruleValidate_ok_iff names namesL hmem r
    | error e =>
      have hu : RuleInner.usesUndef namesL sep = true := by
        cases hb : RuleInner.usesUndef namesL sep with
        | false =>
          exact absurd ((ruleValidate_ok_iff names namesL hmem sep).mpr hb)
            (by simp [hsep])
        | true => rfl
      simp [hu]
  | RuleInner.sepBy1 sep r => by
    simp only [RuleInner.validate, RuleInner.usesUndef]
    cases hsep : RuleInner.validate names sep with
    | ok u =>
      cases u
      have hu : RuleInner.usesUndef namesL sep = false :=
        (ruleValidate_ok_iff names namesL hmem sep).mp hsep
      rw [hu]
      simpa using ruleValidate_ok_iff names namesL hmem r
    | error e =>
      have hu : RuleInner.usesUndef namesL sep = true := by
        cases hb : RuleInner.usesUndef namesL sep with
        | false =>
          exact absurd ((ruleValidate_ok_iff names namesL hmem sep).mpr hb)
            (by simp [hsep])
        | true => rfl
      simp [hu]
  | RuleInner.precR p a r => by
    simp only [RuleInner.validate, RuleInner.usesUndef]
    exact ruleValidate_ok_iff names namesL hmem r

theorem validateRuleList_ok_iff (names : Finset String) (namesL : List String)
    (hmem : ∀ s, s ∈ names ↔ s ∈ namesL) :
    ∀ rs : List RuleInner, (validateRuleList names rs = Except.ok () ↔
      usesUndefList namesL rs = false)
  | [] => by simp [validateRuleList, usesUndefList]
  | r :: rs => by
    simp only [validateRuleList, usesUndefList]
    cases hr : RuleInner.validate names r with
    | ok u =>
      cases u
      have hu : RuleInner.usesUndef namesL r = false :=
        (ruleValidate_ok_iff names namesL hmem r).mp hr
      rw [hu]
      simpa using validateRuleList_ok_iff names namesL hmem rs
    | error e =>
      have hu : RuleInner.usesUndef namesL r = true := by
        cases hb : RuleInner.usesUndef namesL r with
        | false =>
          exact absurd ((ruleValidate_ok_iff names namesL hmem r).mpr hb)
            (by simp [hr])
        | true => rfl
      simp [hu]

end

mutual

theorem ruleValidate_error_shape (names : Finset String) :
    ∀ (r : RuleInner) (e : String), RuleInner.validate names r = Except.error e →
      ∃ s, s ∉ names ∧ e = "symbol \x27" ++ s ++ "\x27 is undefined"
  | RuleInner.sym s => by
    intro e h
    simp only [RuleInner.validate] at h
    by_cases hs : s ∈ names
    · rw [if_pos hs] at h
      exact absurd h (by simp)
    · rw [if_neg hs] at h
      injection h with h
      exact ⟨s, hs, h.symm⟩
  | RuleInner.seq rs => fun e h =>
    validateRuleList_error_shape names rs e (by simpa [RuleInner.validate] using h)
  | RuleInner.orR rs => fun e h =>
    validateRuleList_error_shape names rs e (by simpa [RuleInner.validate] using h)
  | RuleInner.many r => fun e h =>
    ruleValidate_error_shape names r e (by simpa [RuleInner.validate] using h)
  | RuleInner.many1 r => fun e h =>
    ruleValidate_error_shape names r e (by simpa [RuleInner.validate] using h)
  | RuleInner.option r => fun e h =>
    ruleValidate_error_shape names r e (by simpa [RuleInner.validate] using h)
  | RuleInner.sepBy sep r => by
    intro e h
    simp only [RuleInner.validate] at h
    cases hsep : RuleInner.validate names sep with
    | ok u =>
      cases u
      rw [hsep] at h
      exact ruleValidate_error_shape names r e h
    | error e2 =>
      rw [hsep] at h
      injection h with h
      exact h ▸ ruleValidate_error_shape names sep e2 hsep
  | RuleInner.sepBy1 sep r => by
    intro e h
    simp only [RuleInner.validate] at h
    cases hsep : RuleInner.validate names sep with
    | ok u =>
      cases u
      rw [hsep] at h
      exact ruleValidate_error_shape names r e h
    | error e2 =>
      rw [hsep] at h
      injection h with h
      exact h ▸ ruleValidate_error_shape names sep e2 hsep
  | RuleInner.precR p a r => fun e h =>
    ruleValidate_error_shape names r e (by simpa [RuleInner.validate] using h)

theorem validateRuleList_error_shape (names : Finset String) :
    ∀ (rs : List RuleInner) (e : String),
      validateRuleList names rs = Except.error e →
      ∃ s, s ∉ names ∧ e = "symbol \x27" ++ s ++ "\x27 is undefined"
  | [] => by
    intro e h
    exact absurd h (by simp [validateRuleList])
  | r :: rs => by
    intro e h
    simp only [validateRuleList] at h
    cases hr : RuleInner.validate names r with
    | ok u =>
      cases u
      rw [hr] at h
      exact validateRuleList_error_shape names rs e h
    | error e2 =>
      rw [hr] at h
      injection h with h
      exact h ▸ ruleValidate_error_shape names r e2 hr

end

theorem checkRules_ok_iff (names : Finset String) (namesL : List String)
    (hmem : ∀ s, s ∈ names ↔ s ∈ namesL) :
    ∀ rs : List (String × RuleInner), (checkRules names rs = Except.ok () ↔
      ∀ kv ∈ rs, RuleInner.usesUndef namesL kv.2 = false) := by
  intro rs
  induction rs with
  | nil => simp [checkRules]
  | cons kv rest ih =>
    simp only [checkRules]
    cases hr : RuleInner.validate names kv.2 with
    | ok u =>
      cases u
      have hu : RuleInner.usesUndef namesL kv.2 = false :=
        (ruleValidate_ok_iff names namesL hmem kv.2).mp hr
      constructor
      · intro h y hy
        rcases List.mem_cons.mp hy with rfl | hy
        · exact hu
        · exact (ih.mp h) y hy
      · intro h
        exact ih.mpr fun y hy => h y (by simp [hy])
    | error e =>
      have hu : RuleInner.usesUndef namesL kv.2 = true := by
        cases hb : RuleInner.usesUndef namesL kv.2 with
        | false =>
          exact absurd ((ruleValidate_ok_iff names namesL hmem kv.2).mpr hb)
            (by simp [hr])
        | true => rfl
      constructor
      · intro h
        exact absurd h (by simp)
      · intro h
        exact absurd (h kv (by simp)) (by simp [hu])

theorem checkRules_error (names : Finset String) :
    ∀ (rs : List (String × RuleInner)) (e : String),
      checkRules names rs = Except.error e →
      ∃ kv ∈ rs, RuleInner.validate names kv.2 = Except.error e := by
  intro rs
  induction rs with
  | nil =>
    intro e h
    exact absurd h (by simp [checkRules])
  | cons kv rest ih =>
    intro e h
    simp only [checkRules] at h
    cases hr : RuleInner.validate names kv.2 with
    | ok u =>
      cases u
      rw [hr] at h
      obtain ⟨kv2, hkv2, he⟩ := ih e h
      exact ⟨kv2, by simp [hkv2], he⟩
    | error e2 =>
      rw [hr] at h
      injection h with h
      exact ⟨kv, by simp, by rw [hr, h]⟩

/-- Claim C8, confirmed.  `Grammar::validate` returns `Ok` exactly when none
of the seven failure conditions holds, and otherwise returns an error whose
message names the violated condition (the duplicate-start message reads
"duplicate token found in start list", as in the source). -/
theorem c8_validate_iff (g : Grammar) :
    (Grammar.validate g = Except.ok () ↔ ¬ ValidateFailCond g) ∧
    (∀ e, Grammar.validate g = Except.error e →
      (g.tokens = [] ∧ e = "token list is empty") ∨
      (¬ g.tokens.Nodup ∧ e = "duplicate token found in token list") ∨
      (g.start = [] ∧ e = "start rule list is empty") ∨
      (¬ g.start.Nodup ∧ e = "duplicate token found in start list") ∨
      (∃ s ∈ g.start, s ∉ g.rules.map Prod.fst ∧
        e = "start rule \x27" ++ s ++ "\x27 is undefined") ∨
      ((∃ nm, nm ∈ g.tokens ∧ nm ∈ g.rules.map Prod.fst) ∧
        e = "token name collides with rule name") ∨
      ((∃ kv ∈ g.rules, RuleInner.usesUndef
          (g.tokens ++ g.rules.map Prod.fst) kv.2 = true) ∧
        ∃ s, s ∉ g.tokens ++ g.rules.map Prod.fst ∧
          e = "symbol \x27" ++ s ++ "\x27 is undefined")) := by
  have hmem : ∀ s : String,
      s ∈ g.tokens.toFinset ∪ (g.rules.map Prod.fst).toFinset ↔
      s ∈ g.tokens ++ g.rules.map Prod.fst := by
    intro s
    simp
  have htokdup : ((g.tokens.toFinset).card ≠ g.tokens.length) ↔
      ¬ g.tokens.Nodup := by
    rw [List.card_toFinset]
    constructor
    · intro h hc
      exact h ((dedup_length_eq_iff _).mpr hc)
    · intro h hc
      exact h ((dedup_length_eq_iff _).mp hc)
  have hstartdup : ((g.start.toFinset).card < g.start.length) ↔
      ¬ g.start.Nodup := by
    rw [List.card_toFinset]
    have hle : (g.start.dedup).length ≤ g.start.length :=
      (List.dedup_sublist _).length_le
    constructor
    · intro h hc
      rw [(dedup_length_eq_iff _).mpr hc] at h
      omega
    · intro h
      have : (g.start.dedup).length ≠ g.start.length := fun hc =>
        h ((dedup_length_eq_iff _).mp hc)
      omega
  have hcollide : ((g.tokens.toFinset ∪ (g.rules.map Prod.fst).toFinset).card ≠
      (g.tokens.toFinset).card + ((g.rules.map Prod.fst).toFinset).card) ↔
      (∃ nm, nm ∈ g.tokens ∧ nm ∈ g.rules.map Prod.fst) := by
    have hq := Finset.card_union_add_card_inter g.tokens.toFinset
      ((g.rules.map Prod.fst).toFinset)
    constructor
    · intro h
      have hne : (g.tokens.toFinset ∩ (g.rules.map Prod.fst).toFinset).card ≠ 0 := by
        omega
      obtain ⟨nm, hnm⟩ := Finset.card_ne_zero.mp hne
      rw [Finset.mem_inter, List.mem_toFinset, List.mem_toFinset] at hnm
      exact ⟨nm, hnm⟩
    · rintro ⟨nm, h1, h2⟩
      have hne := Finset.card_ne_zero_of_mem (Finset.mem_inter.mpr
        ⟨List.mem_toFinset.mpr h1, List.mem_toFinset.mpr h2⟩)
      omega
  unfold Grammar.validate
  by_cases h1 : g.tokens.isEmpty
  · have hc : g.tokens = [] := by simpa using h1
    rw [if_pos h1]
    refine ⟨iff_of_false (by simp) (by simp [ValidateFailCond, hc]), ?_⟩
    intro e he
    injection he with he
    exact Or.inl ⟨hc, he.symm⟩
  · rw [if_neg h1]
    have hc1 : g.tokens ≠ [] := by simpa using h1
    by_cases h2 : (g.tokens.toFinset).card ≠ g.tokens.length
    · have hc : ¬ g.tokens.Nodup := htokdup.mp h2
      rw [if_pos h2]
      refine ⟨iff_of_false (by simp) (by simp [ValidateFailCond, hc]), ?_⟩
      intro e he
      injection he with he
      exact Or.inr (Or.inl ⟨hc, he.symm⟩)
    · rw [if_neg h2]
      have hc2 : g.tokens.Nodup := by
        by_contra hx
        exact h2 (htokdup.mpr hx)
      by_cases h3 : g.start.isEmpty
      · have hc : g.start = [] := by simpa using h3
        rw [if_pos h3]
        refine ⟨iff_of_false (by simp) (by simp [ValidateFailCond, hc]), ?_⟩
        intro e he
        injection he with he
        exact Or.inr (Or.inr (Or.inl ⟨hc, he.symm⟩))
      · rw [if_neg h3]
        have hc3 : g.start ≠ [] := by simpa using h3
        by_cases h4 : (g.start.toFinset).card < g.start.length
        · have hc : ¬ g.start.Nodup := hstartdup.mp h4
          rw [if_pos h4]
          refine ⟨iff_of_false (by simp) (by simp [ValidateFailCond, hc]), ?_⟩
          intro e he
          injection he with he
          exact Or.inr (Or.inr (Or.inr (Or.inl ⟨hc, he.symm⟩)))
        · rw [if_neg h4]
          have hc4 : g.start.Nodup := by
            by_contra hx
            exact h4 (hstartdup.mpr hx)
          cases hst : checkStarts ((g.rules.map Prod.fst).toFinset) g.start with
          | error e2 =>
            obtain ⟨s, hs, hns, he2⟩ :=
              checkStarts_error _ _ _ hst
            have hc : ∃ s ∈ g.start, s ∉ g.rules.map Prod.fst :=
              ⟨s, hs, fun hx => hns (List.mem_toFinset.mpr hx)⟩
            have hcond : ValidateFailCond g :=
              Or.inr (Or.inr (Or.inr (Or.inr (Or.inl hc))))
            refine ⟨iff_of_false (by simp) (not_not.mpr hcond), ?_⟩
            intro e he
            injection he with he
            refine Or.inr (Or.inr (Or.inr (Or.inr (Or.inl
              ⟨s, hs, fun hx => hns (List.mem_toFinset.mpr hx), ?_⟩))))
            rw [← he, he2]
          | ok u =>
            cases u
            have hc5 : ∀ s ∈ g.start, s ∈ g.rules.map Prod.fst := by
              intro s hs
              have := (checkStarts_ok_iff _ g.start).mp hst s hs
              exact List.mem_toFinset.mp this
            by_cases h6 : (g.tokens.toFinset ∪ (g.rules.map Prod.fst).toFinset).card ≠
                (g.tokens.toFinset).card + ((g.rules.map Prod.fst).toFinset).card
            · have hc : ∃ nm, nm ∈ g.tokens ∧ nm ∈ g.rules.map Prod.fst :=
                hcollide.mp h6
              rw [if_pos h6]
              have hcond : ValidateFailCond g :=
                Or.inr (Or.inr (Or.inr (Or.inr (Or.inr (Or.inl hc)))))
              refine ⟨iff_of_false (by simp) (not_not.mpr hcond), ?_⟩
              intro e he
              injection he with he
              exact Or.inr (Or.inr (Or.inr (Or.inr (Or.inr (Or.inl
                ⟨hc, he.symm⟩)))))
            · rw [if_neg h6]
              have hc6 : ¬ ∃ nm, nm ∈ g.tokens ∧ nm ∈ g.rules.map Prod.fst :=
                fun hx => h6 (hcollide.mpr hx)
              constructor
              · rw [checkRules_ok_iff _ _ hmem]
                simp only [ValidateFailCond]
                constructor
                · intro hall hcond
                  rcases hcond with hx | hx | hx | hx | hx | hx | hx
                  · exact hc1 hx
                  · exact hx hc2
                  · exact hc3 hx
                  · exact hx hc4
                  · obtain ⟨s, hs, hns⟩ := hx
                    exact hns (hc5 s hs)
                  · exact hc6 hx
                  · obtain ⟨kv, hkv, hu⟩ := hx
                    rw [hall kv hkv] at hu
                    exact absurd hu (by simp)
                · intro hncond kv hkv
                  cases hb : RuleInner.usesUndef
                      (g.tokens ++ g.rules.map Prod.fst) kv.2 with
                  | false => rfl
                  | true =>
                    exact absurd (Or.inr (Or.inr (Or.inr (Or.inr (Or.inr
                      (Or.inr ⟨kv, hkv, hb⟩)))))) hncond
              · intro e he
                obtain ⟨kv, hkv, hkverr⟩ := checkRules_error _ _ _ he
                have hu : RuleInner.usesUndef
                    (g.tokens ++ g.rules.map Prod.fst) kv.2 = true := by
                  cases hb : RuleInner.usesUndef
                      (g.tokens ++ g.rules.map Prod.fst) kv.2 with
                  | false =>
                    exact absurd ((ruleValidate_ok_iff _ _ hmem kv.2).mpr hb)
                      (by simp [hkverr])
                  | true => rfl
                obtain ⟨s, hns, he2⟩ := ruleValidate_error_shape _ kv.2 e hkverr
                refine Or.inr (Or.inr (Or.inr (Or.inr (Or.inr (Or.inr
                  ⟨⟨kv, hkv, hu⟩, s, ?_, he2⟩)))))
                intro hx
                exact hns ((hmem s).mpr hx)

/-- Claim C1, code bug.  On `bnfLoop` the very first pass sets
`nullable[A]` through `A → ε` and then fires `A → A`, whose left-hand side
is already true; because the source computes `changed |= nullable[nt_ix]`
(the old value) instead of detecting a genuine change, every pass from then
on reports `changed = true` and the loop never exits: `gen_nullable` does
not terminate, for any amount of fuel. -/
theorem c1_gen_nullable_diverges : ∀ fuel, genNullable bnfLoop fuel = none := by
  have h2 : nullablePass bnfLoop.prods [true] = ([true], true) := by decide
  have aux : ∀ fuel, genNullableGo bnfLoop.prods fuel [true] = none := by
    intro fuel
    induction fuel with
    | zero => rfl
    | succ n ih =>
      show genNullableGo bnfLoop.prods (n + 1) [true] = none
      simp only [genNullableGo, h2]
      exact ih
  intro fuel
  cases fuel with
  | zero => rfl
  | succ n =>
    show genNullableGo bnfLoop.prods (n + 1) [false] = none
    have h1 : nullablePass bnfLoop.prods [false] = ([true], true) := by decide
    simp only [genNullableGo, h1]
    exact aux n

/-- Claim C6, code bug.  On `bnfAB` the single pass skips `A → B` (B is not
yet marked), then fires `B → ε`; since `nullable[B]` was false the inverted
flag stays false and the loop exits after one pass, returning
`[false, true]`.  Yet `A ⇒ B ⇒ ε`, so the result is not the least solution
of the nullable equations: `nullable[A]` should be true.  (With fuel 9 the
loop exits long before the fuel runs out, so the `some` result is the
value the Rust loop returns.) -/
theorem c6_gen_nullable_not_least : genNullable bnfAB 9 = some [false, true] ∧
    Derives bnfAB [Symbol.nonterm 0] [] := by
  constructor
  · decide
  · have h1 : Step bnfAB [Symbol.nonterm 0] [Symbol.nonterm 1] := by
      have := @Step.expand bnfAB [] []
        ⟨0, ProdAction.none, Option.none, Assoc.none, [Symbol.nonterm 1]⟩
        (by decide)
      simpa using this
    have h2 : Step bnfAB [Symbol.nonterm 1] [] := by
      have := @Step.expand bnfAB [] []
        ⟨1, ProdAction.none, Option.none, Assoc.none, []⟩
        (by decide)
      simpa using this
    exact Relation.ReflTransGen.head h1 (Relation.ReflTransGen.single h2)


/-- Claim C2, code bug.  The claim says that after `insert(i)` the membership
test `BitSet::get(i)` returns true, and that it returns false for indices
never inserted.  The source of `get` masks the block with the bit index
instead of with `1 << (bit % 64)`, so on the bitset `new(64)` with 3
inserted, `get 3` computes `8 &&& 3 = 0` and answers `false`; and with only
1 inserted, `get 3` computes `2 &&& 3 = 2` and answers `true` although 3 was
never inserted.  The intended decoding `mem` confirms that `insert` itself
stored bit 3 correctly. -/
theorem c2_bitset_get_code_bug :
    ((BitSet.new 64).insert 3).get 3 = false ∧
    ((BitSet.new 64).insert 1).get 3 = true ∧
    ((BitSet.new 64).insert 3).mem 3 = true := by
  refine ⟨by decide, by decide, by decide⟩

/-! ## Lemmas: patching an appended production block -/

/-- `mapIdx` with an update restricted to the indices of the appended tail
rewrites exactly that tail. -/
theorem mapIdx_if_range_append {α : Type} (g : α → α) (xs ys : List α) :
    List.mapIdx
      (fun i x => if xs.length ≤ i ∧ i < xs.length + ys.length then g x else x)
      (xs ++ ys) = xs ++ ys.map g := by
  rw [List.mapIdx_append]
  congr 1
  · apply List.ext_getElem?
    intro n
    rw [List.getElem?_mapIdx]
    rcases Nat.lt_or_ge n xs.length with h | h
    · rw [List.getElem?_eq_getElem h]
      have hcond : ¬ (xs.length ≤ n ∧ n < xs.length + ys.length) := by omega
      simp [hcond]
    · rw [List.getElem?_eq_none (by omega)]
      rfl
  · apply List.ext_getElem?
    intro n
    rw [List.getElem?_mapIdx, List.getElem?_map]
    rcases Nat.lt_or_ge n ys.length with h | h
    · rw [List.getElem?_eq_getElem h]
      have hcond : xs.length ≤ n + xs.length ∧
          n + xs.length < xs.length + ys.length := by omega
      simp [hcond]
    · rw [List.getElem?_eq_none (by omega)]
      rfl

/-- Stamping the range of a freshly appended block stamps exactly the
block. -/
theorem stampRange_append (xs ys : List Production) (p : Nat) (a : Assoc) :
    stampRange (xs ++ ys) xs.length (xs.length + ys.length) p a =
      xs ++ ys.map (stampProd p a) := by
  unfold stampRange
  exact mapIdx_if_range_append (stampProd p a) xs ys

/-- One-production instance of `stampRange_append`. -/
theorem stampRange_append_one (xs : List Production) (pr : Production)
    (p : Nat) (a : Assoc) :
    stampRange (xs ++ [pr]) xs.length (xs.length + 1) p a =
      xs ++ [stampProd p a pr] := by
  have h := stampRange_append xs [pr] p a
  simpa using h

/-- Re-owning the range of a freshly appended block patches exactly the
block. -/
theorem setNontermIdRange_append (xs ys : List Production) (id : Nat) :
    setNontermIdRange (xs ++ ys) xs.length (xs.length + ys.length) id =
      xs ++ ys.map (fun prod => { prod with nontermId := id }) := by
  unfold setNontermIdRange
  exact mapIdx_if_range_append _ xs ys

/-- One-production instance of `setNontermIdRange_append`. -/
theorem setNontermIdRange_append_one (xs : List Production) (pr : Production)
    (id : Nat) :
    setNontermIdRange (xs ++ [pr]) xs.length (xs.length + 1) id =
      xs ++ [{ pr with nontermId := id }] := by
  have h := setNontermIdRange_append xs [pr] id
  simpa using h

/-- Two-production instance of `setNontermIdRange_append`. -/
theorem setNontermIdRange_append_two (xs : List Production)
    (p1 p2 : Production) (id : Nat) :
    setNontermIdRange (xs ++ [p1, p2]) xs.length (xs.length + 2) id =
      xs ++ [{ p1 with nontermId := id }, { p2 with nontermId := id }] := by
  have h := setNontermIdRange_append xs [p1, p2] id
  simpa using h

/-- Reading just past a prefix of known length lands on the appended
element. -/
theorem getD_append_self {α : Type} [Inhabited α] (xs : List α) (y : α)
    (ys : List α) (d : α) : (xs ++ y :: ys).getD xs.length d = y := by
  induction xs with
  | nil => rfl
  | cons x xs ih => simpa using ih

/-- Writing just past a prefix of known length overwrites the appended
element. -/
theorem set_append_self {α : Type} (xs : List α) (y z : α) (ys : List α) :
    (xs ++ y :: ys).set xs.length z = xs ++ z :: ys := by
  induction xs with
  | nil => rfl
  | cons x xs ih => simp [ih]

/-! ## Concrete lowerings of the two precedence grammars -/

/-- The full lowering of `gXS`.  `X`, although it owns productions 0 and 1,
ends with the empty range `2 .. 2`: `gen_sym` stamped precedence 1 over the
range and the iteration over `&mut prod_range` consumed it. -/
theorem lowerGrammar_gXS : lowerGrammar gXS =
    { tokens := ["a", "b"]
      starts := [("S", 1)]
      nonterms := [⟨"X", 2, 2⟩, ⟨"S", 2, 3⟩]
      prods := [⟨0, ProdAction.none, some 1, Assoc.left, [Symbol.term 0]⟩,
        ⟨0, ProdAction.none, some 1, Assoc.left, [Symbol.term 1]⟩,
        ⟨1, ProdAction.none, Option.none, Assoc.none, [Symbol.nonterm 0]⟩] } := by
  simp only [lowerGrammar, gXS, List.enum, List.foldl, genNonterm, genProd,
    genSym, genProdList, genSymList, insertNonterm, repReserve, repFinish,
    stampNonterm, stampRange, setNontermIdRange, symLookup, symInsert,
    stampProd, List.find?, List.map, List.contains, List.elem]
  decide

/-- The full lowering of `gPrecShared`: no third nonterminal is created for
the `Prec`-wrapped use of `X`; instead the two productions owned by `X` are
stamped with precedence 1, although the bare second use of `X` in `S`
reaches those same productions. -/
theorem lowerGrammar_gPrecShared : lowerGrammar gPrecShared =
    { tokens := ["a", "b"]
      starts := [("S", 1)]
      nonterms := [⟨"X", 2, 2⟩, ⟨"S", 2, 3⟩]
      prods := [⟨0, ProdAction.none, some 1, Assoc.left, [Symbol.term 0]⟩,
        ⟨0, ProdAction.none, some 1, Assoc.left, [Symbol.term 1]⟩,
        ⟨1, ProdAction.none, Option.none, Assoc.none,
          [Symbol.nonterm 0, Symbol.nonterm 0]⟩] } := by
  simp only [lowerGrammar, gPrecShared, List.enum, List.foldl, genNonterm,
    genProd, genSym, genProdList, genSymList, insertNonterm, repReserve,
    repFinish, stampNonterm, stampRange, setNontermIdRange, symLookup,
    symInsert, stampProd, List.find?, List.map, List.contains, List.elem]
  decide

/-! ## Claim C5 -/

/-- Claim C5, code bug.  The claimed invariant fails on the validated
grammar `gXS`: after lowering, productions 0 and 1 record `X` (id 0) as
their owner, yet the stored `prod_range` of `X` is the EMPTY range
`2 .. 2` — the stamping loop of the `Prec` arm iterates over
`&mut nonterms[id].prod_range`, which advances the stored `Range` itself
and leaves it drained, contradicting both the range/ownership
correspondence and the documented non-emptiness of `prod_range`
(`/// non-empty` in src/bnf.rs). -/
theorem c5_prod_range_drained :
    Grammar.validate gXS = Except.ok () ∧
    (lowerGrammar gXS).prods.length = 3 ∧
    ((lowerGrammar gXS).prods.getD 0 default).nontermId = 0 ∧
    ((lowerGrammar gXS).nonterms.getD 0 default).rangeStart = 2 ∧
    ((lowerGrammar gXS).nonterms.getD 0 default).rangeStop = 2 ∧
    ¬ C5Prop (lowerGrammar gXS) := by
  refine ⟨rfl, ?_, ?_, ?_, ?_, ?_⟩
  · rw [lowerGrammar_gXS]
    rfl
  · rw [lowerGrammar_gXS]
    rfl
  · rw [lowerGrammar_gXS]
    rfl
  · rw [lowerGrammar_gXS]
    rfl
  · rw [lowerGrammar_gXS]
    unfold C5Prop
    decide

/-! ## Claim C3 -/

/-- Claim C3, counterexample.  In the validated grammar `gPrecShared`,
`Prec(1, Left, Sym("X"))` names the NONTERMINAL `X`, which `S` also uses
bare.  Lowering does not promote this occurrence to a fresh nonterminal
(the lowered BNF still has exactly the two nonterminals `X` and `S`), and
the precedence is stamped onto the shared productions 0 and 1 of `X`,
which the bare use of `X` in production 2 also reaches — so productions
reachable through the other use of `x` are NOT left unchanged. -/
theorem c3_prec_sym_counterexample :
    Grammar.validate gPrecShared = Except.ok () ∧
    (lowerGrammar gPrecShared).nonterms.length = 2 ∧
    ((lowerGrammar gPrecShared).prods.getD 2 default).symbols =
      [Symbol.nonterm 0, Symbol.nonterm 0] ∧
    ((lowerGrammar gPrecShared).prods.getD 0 default).prec = some 1 ∧
    ((lowerGrammar gPrecShared).prods.getD 1 default).prec = some 1 := by
  refine ⟨rfl, ?_, ?_, ?_, ?_⟩ <;> rw [lowerGrammar_gPrecShared] <;> rfl

/-- Claim C3, corrected.  What `gen_sym` actually does with
`Prec(p, a, Sym(x))`: it first resolves `x`.  If `x` is bound to a
nonterminal id, that EXISTING nonterminal is returned and `p`/`a` are
stamped over every production of its current `prod_range` (productions
shared with every other use of `x`), draining the stored range.  Only if
`x` is bound to a token does lowering create a fresh nonterminal with the
single production `[x]`, stamp `p`/`a` on it (leaving its stored range
drained as well), and — far from leaving the symbol `x` unchanged — rebind
the name `x` to the fresh nonterminal for all later uses. -/
theorem c3_prec_sym_amended :
    (∀ (st : LowerSt) (x : String) (p : Nat) (a : Assoc) (id : Nat),
      symLookup st.symbols x = some (Symbol.nonterm id) →
      genSym (RuleInner.precR p a (RuleInner.sym x)) st =
        (Symbol.nonterm id, stampNonterm st id p a)) ∧
    (∀ (st : LowerSt) (x : String) (p : Nat) (a : Assoc) (tid : Nat),
      symLookup st.symbols x = some (Symbol.term tid) →
      genSym (RuleInner.precR p a (RuleInner.sym x)) st =
        (Symbol.nonterm st.nonterms.length,
         { nonterms := st.nonterms ++
             [⟨x, st.prods.length + 1, st.prods.length + 1⟩]
           prods := st.prods ++
             [⟨st.nonterms.length, ProdAction.none, some p, a,
               [Symbol.term tid]⟩]
           symbols := symInsert st.symbols x
             (Symbol.nonterm st.nonterms.length) })) := by
  constructor
  · intro st x p a id h
    simp only [genSym, h, Option.getD_some]
  · intro st x p a tid h
    simp only [genSym, h, Option.getD_some, RuleInner.name, genNonterm,
      genProd, insertNonterm, stampNonterm]
    simp only [h, setNontermIdRange_append_one]
    rw [getD_append_self]
    rw [stampRange_append_one, set_append_self]
    simp [stampProd]

/-- Both cases of the corrected claim C3, instantiated on the concrete
state `stC3`, where `X` is bound to nonterminal 0 and `a` to token 0. -/
theorem c3_prec_sym_amended_witness :
    genSym (RuleInner.precR 1 Assoc.left (RuleInner.sym "X")) stC3 =
      (Symbol.nonterm 0, stampNonterm stC3 0 1 Assoc.left) ∧
    genSym (RuleInner.precR 2 Assoc.right (RuleInner.sym "a")) stC3 =
      (Symbol.nonterm 1,
       { nonterms := stC3.nonterms ++ [⟨"a", 2, 2⟩]
         prods := stC3.prods ++
           [⟨1, ProdAction.none, some 2, Assoc.right, [Symbol.term 0]⟩]
         symbols := symInsert stC3.symbols "a" (Symbol.nonterm 1) }) :=
  ⟨c3_prec_sym_amended.1 stC3 "X" 1 Assoc.left 0 rfl,
   c3_prec_sym_amended.2 stC3 "a" 2 Assoc.right 0 rfl⟩

/-! ## Claim C9 -/

/-- Claim C9, confirmed.  Each repetition combinator lowers to one
nonterminal carrying exactly the two canonical productions of the action
table, in order, with self-recursion through the reserved id: `Many(r)`
yields `ε # StartMany` then `[self, r] # ContinueMany`; `Many1(r)` yields
`[r] # StartMany1` then `[self, r] # ContinueMany1`; `Option(r)` yields
`ε # EmptyOption` then the `NonemptyOption` production built from `r`;
`SepBy1(s, r)` yields `[r] # StartSepBy1` then
`[self, s, r] # ContinueSepBy1`; and `SepBy(s, r)` (with the derived
`sepBy1` name unbound and the target name unbound) yields
`ε # EmptySepBy` then a `NonemptySepBy` production whose single symbol is
the freshly generated `SepBy1` nonterminal. -/
theorem c9_rep_lowering :
    (∀ (name : String) (r : RuleInner) (st st2 stMid : LowerSt) (id : Nat)
        (sym : Symbol),
      repReserve name st = (id, st2) →
      genSym r st2 = (sym, stMid) →
      genNonterm name (RuleInner.many r) st =
        (id, { nonterms := stMid.nonterms.set id
                 ⟨name, stMid.prods.length, stMid.prods.length + 2⟩
               prods := stMid.prods ++
                 [⟨id, ProdAction.startMany, Option.none, Assoc.none, []⟩,
                  ⟨id, ProdAction.continueMany, Option.none, Assoc.none,
                   [Symbol.nonterm id, sym]⟩]
               symbols := stMid.symbols })) ∧
    (∀ (name : String) (r : RuleInner) (st st2 stMid : LowerSt) (id : Nat)
        (sym : Symbol),
      repReserve name st = (id, st2) →
      genSym r st2 = (sym, stMid) →
      genNonterm name (RuleInner.many1 r) st =
        (id, { nonterms := stMid.nonterms.set id
                 ⟨name, stMid.prods.length, stMid.prods.length + 2⟩
               prods := stMid.prods ++
                 [⟨id, ProdAction.startMany1, Option.none, Assoc.none,
                   [sym]⟩,
                  ⟨id, ProdAction.continueMany1, Option.none, Assoc.none,
                   [Symbol.nonterm id, sym]⟩]
               symbols := stMid.symbols })) ∧
    (∀ (name : String) (r : RuleInner) (st st2 stMid : LowerSt) (id : Nat)
        (prod : Production),
      repReserve name st = (id, st2) →
      genProd ProdAction.nonemptyOption r st2 = (prod, stMid) →
      genNonterm name (RuleInner.option r) st =
        (id, { nonterms := stMid.nonterms.set id
                 ⟨name, stMid.prods.length, stMid.prods.length + 2⟩
               prods := stMid.prods ++
                 [⟨id, ProdAction.emptyOption, Option.none, Assoc.none, []⟩,
                  { prod with nontermId := id }]
               symbols := stMid.symbols })) ∧
    (∀ (name : String) (sep r : RuleInner) (st st2 stA stMid : LowerSt)
        (id : Nat) (sepSym rSym : Symbol),
      repReserve name st = (id, st2) →
      genSym sep st2 = (sepSym, stA) →
      genSym r stA = (rSym, stMid) →
      genNonterm name (RuleInner.sepBy1 sep r) st =
        (id, { nonterms := stMid.nonterms.set id
                 ⟨name, stMid.prods.length, stMid.prods.length + 2⟩
               prods := stMid.prods ++
                 [⟨id, ProdAction.startSepBy1, Option.none, Assoc.none,
                   [rSym]⟩,
                  ⟨id, ProdAction.continueSepBy1, Option.none, Assoc.none,
                   [Symbol.nonterm id, sepSym, rSym]⟩]
               symbols := stMid.symbols })) ∧
    (∀ (name : String) (sep r : RuleInner) (st stMid : LowerSt)
        (prod : Production),
      symLookup st.symbols
        (RuleInner.name (RuleInner.sepBy1 sep r)) = Option.none →
      genProd ProdAction.nonemptySepBy (RuleInner.sepBy1 sep r) st =
        (prod, stMid) →
      symLookup stMid.symbols name = Option.none →
      prod.action = ProdAction.nonemptySepBy ∧
      prod.symbols = [Symbol.nonterm st.nonterms.length] ∧
      genNonterm name (RuleInner.sepBy sep r) st =
        (stMid.nonterms.length,
         { nonterms := stMid.nonterms ++
             [⟨name, stMid.prods.length, stMid.prods.length + 2⟩]
           prods := stMid.prods ++
             [⟨stMid.nonterms.length, ProdAction.emptySepBy, Option.none,
               Assoc.none, []⟩,
              { prod with nontermId := stMid.nonterms.length }]
           symbols := symInsert stMid.symbols name
             (Symbol.nonterm stMid.nonterms.length) })) := by
  refine ⟨?_, ?_, ?_, ?_, ?_⟩
  · intro name r st st2 stMid id sym h1 h2
    simp only [genNonterm, h1, h2, repFinish]
  · intro name r st st2 stMid id sym h1 h2
    simp only [genNonterm, h1, h2, repFinish]
  · intro name r st st2 stMid id prod h1 h2
    simp only [genNonterm, h1, h2, repFinish]
  · intro name sep r st st2 stA stMid id sepSym rSym h1 h2 h3
    simp only [genNonterm, h1, h2, h3, repFinish]
  · intro name sep r st stMid prod hfresh h2 hname
    have hsy1 : (genSym (RuleInner.sepBy1 sep r) st).1 =
        Symbol.nonterm st.nonterms.length := by
      simp only [genSym, genNonterm, repReserve, hfresh]
    have hprod : prod = ⟨0, ProdAction.nonemptySepBy, Option.none,
        Assoc.none, [Symbol.nonterm st.nonterms.length]⟩ := by
      have hfst := congrArg Prod.fst h2
      simp only [genProd] at hfst
      rw [hsy1] at hfst
      exact hfst.symm
    refine ⟨by rw [hprod], by rw [hprod], ?_⟩
    simp only [genNonterm, h2, insertNonterm, hname]
    have hset := setNontermIdRange_append_two stMid.prods
      ⟨0, ProdAction.emptySepBy, Option.none, Assoc.none, []⟩ prod
      stMid.nonterms.length
    rw [hset]

/-- All five cases of claim C9 instantiated on the concrete state `stC9`,
which binds the tokens `a` (id 0) and `b` (id 1). -/
theorem c9_rep_lowering_witness :
    genNonterm "r0" (RuleInner.many (RuleInner.sym "a")) stC9 =
      (0, { nonterms := [⟨"r0", 0, 2⟩]
            prods :=
              [⟨0, ProdAction.startMany, Option.none, Assoc.none, []⟩,
               ⟨0, ProdAction.continueMany, Option.none, Assoc.none,
                [Symbol.nonterm 0, Symbol.term 0]⟩]
            symbols := [("a", Symbol.term 0), ("b", Symbol.term 1),
              ("r0", Symbol.nonterm 0)] }) ∧
    genNonterm "r1" (RuleInner.many1 (RuleInner.sym "a")) stC9 =
      (0, { nonterms := [⟨"r1", 0, 2⟩]
            prods :=
              [⟨0, ProdAction.startMany1, Option.none, Assoc.none,
                [Symbol.term 0]⟩,
               ⟨0, ProdAction.continueMany1, Option.none, Assoc.none,
                [Symbol.nonterm 0, Symbol.term 0]⟩]
            symbols := [("a", Symbol.term 0), ("b", Symbol.term 1),
              ("r1", Symbol.nonterm 0)] }) ∧
    genNonterm "r2" (RuleInner.option (RuleInner.sym "a")) stC9 =
      (0, { nonterms := [⟨"r2", 0, 2⟩]
            prods :=
              [⟨0, ProdAction.emptyOption, Option.none, Assoc.none, []⟩,
               ⟨0, ProdAction.nonemptyOption, Option.none, Assoc.none,
                [Symbol.term 0]⟩]
            symbols := [("a", Symbol.term 0), ("b", Symbol.term 1),
              ("r2", Symbol.nonterm 0)] }) ∧
    genNonterm "r3" (RuleInner.sepBy1 (RuleInner.sym "b")
        (RuleInner.sym "a")) stC9 =
      (0, { nonterms := [⟨"r3", 0, 2⟩]
            prods :=
              [⟨0, ProdAction.startSepBy1, Option.none, Assoc.none,
                [Symbol.term 0]⟩,
               ⟨0, ProdAction.continueSepBy1, Option.none, Assoc.none,
                [Symbol.nonterm 0, Symbol.term 1, Symbol.term 0]⟩]
            symbols := [("a", Symbol.term 0), ("b", Symbol.term 1),
              ("r3", Symbol.nonterm 0)] }) ∧
    genNonterm "r4" (RuleInner.sepBy (RuleInner.sym "b")
        (RuleInner.sym "a")) stC9 =
      (1, { nonterms := [⟨"sepBy1(b,a)", 0, 2⟩, ⟨"r4", 2, 4⟩]
            prods :=
              [⟨0, ProdAction.startSepBy1, Option.none, Assoc.none,
                [Symbol.term 0]⟩,
               ⟨0, ProdAction.continueSepBy1, Option.none, Assoc.none,
                [Symbol.nonterm 0, Symbol.term 1, Symbol.term 0]⟩,
               ⟨1, ProdAction.emptySepBy, Option.none, Assoc.none, []⟩,
               ⟨1, ProdAction.nonemptySepBy, Option.none, Assoc.none,
                [Symbol.nonterm 0]⟩]
            symbols := [("a", Symbol.term 0), ("b", Symbol.term 1),
              ("sepBy1(b,a)", Symbol.nonterm 0),
              ("r4", Symbol.nonterm 1)] }) := by
  refine ⟨?_, ?_, ?_, ?_, ?_⟩
  · exact c9_rep_lowering.1 "r0" (RuleInner.sym "a") stC9
      { nonterms := [default], prods := [],
        symbols := [("a", Symbol.term 0), ("b", Symbol.term 1),
          ("r0", Symbol.nonterm 0)] }
      { nonterms := [default], prods := [],
        symbols := [("a", Symbol.term 0), ("b", Symbol.term 1),
          ("r0", Symbol.nonterm 0)] }
      0 (Symbol.term 0) rfl (by simp [genSym, symLookup, List.find?])
  · exact c9_rep_lowering.2.1 "r1" (RuleInner.sym "a") stC9
      { nonterms := [default], prods := [],
        symbols := [("a", Symbol.term 0), ("b", Symbol.term 1),
          ("r1", Symbol.nonterm 0)] }
      { nonterms := [default], prods := [],
        symbols := [("a", Symbol.term 0), ("b", Symbol.term 1),
          ("r1", Symbol.nonterm 0)] }
      0 (Symbol.term 0) rfl (by simp [genSym, symLookup, List.find?])
  · exact c9_rep_lowering.2.2.1 "r2" (RuleInner.sym "a") stC9
      { nonterms := [default], prods := [],
        symbols := [("a", Symbol.term 0), ("b", Symbol.term 1),
          ("r2", Symbol.nonterm 0)] }
      { nonterms := [default], prods := [],
        symbols := [("a", Symbol.term 0), ("b", Symbol.term 1),
          ("r2", Symbol.nonterm 0)] }
      0 ⟨0, ProdAction.nonemptyOption, Option.none, Assoc.none,
        [Symbol.term 0]⟩
      rfl (by simp [genProd, genSym, symLookup, List.find?])
  · exact c9_rep_lowering.2.2.2.1 "r3" (RuleInner.sym "b")
      (RuleInner.sym "a") stC9
      { nonterms := [default], prods := [],
        symbols := [("a", Symbol.term 0), ("b", Symbol.term 1),
          ("r3", Symbol.nonterm 0)] }
      { nonterms := [default], prods := [],
        symbols := [("a", Symbol.term 0), ("b", Symbol.term 1),
          ("r3", Symbol.nonterm 0)] }
      { nonterms := [default], prods := [],
        symbols := [("a", Symbol.term 0), ("b", Symbol.term 1),
          ("r3", Symbol.nonterm 0)] }
      0 (Symbol.term 1) (Symbol.term 0) rfl
      (by simp [genSym, symLookup, List.find?])
      (by simp [genSym, symLookup, List.find?])
  · have h := c9_rep_lowering.2.2.2.2 "r4" (RuleInner.sym "b")
      (RuleInner.sym "a") stC9
      { nonterms := [⟨"sepBy1(b,a)", 0, 2⟩]
        prods :=
          [⟨0, ProdAction.startSepBy1, Option.none, Assoc.none,
            [Symbol.term 0]⟩,
           ⟨0, ProdAction.continueSepBy1, Option.none, Assoc.none,
            [Symbol.nonterm 0, Symbol.term 1, Symbol.term 0]⟩]
        symbols := [("a", Symbol.term 0), ("b", Symbol.term 1),
          ("sepBy1(b,a)", Symbol.nonterm 0)] }
      ⟨0, ProdAction.nonemptySepBy, Option.none, Assoc.none,
        [Symbol.nonterm 0]⟩
      rfl
      (by simp [genProd, genSym, genNonterm, repReserve, repFinish,
        symLookup, symInsert, List.find?, List.map, List.contains,
        List.elem, RuleInner.name, nameListSep, stC9])
      rfl
    exact h.2.2

/-- The full lowering of `gConf`: `S` owns the two productions
`S → S S` and `S → a`. -/
theorem lowerGrammar_gConf : lowerGrammar gConf =
    { tokens := ["a"]
      starts := [("S", 0)]
      nonterms := [⟨"S", 0, 2⟩]
      prods := [⟨0, ProdAction.none, Option.none, Assoc.none,
          [Symbol.nonterm 0, Symbol.nonterm 0]⟩,
        ⟨0, ProdAction.none, Option.none, Assoc.none, [Symbol.term 0]⟩] } := by
  simp only [lowerGrammar, gConf, List.enum, List.foldl, genNonterm, genProd,
    genSym, genProdList, genSymList, insertNonterm, repReserve, repFinish,
    stampNonterm, stampRange, setNontermIdRange, symLookup, symInsert,
    stampProd, List.find?, List.map, List.contains, List.elem]
  decide

/-! ## Claim C4 -/

/-- Claim C4, code bug.  `Parser::new` validates the grammar and then
returns `Ok(Parser {})` UNCONDITIONALLY: the result of the state generator
is discarded, and the state generator itself cannot report anything (the
body of `gen_states_for_start` in src/src/parser/state.rs is empty).  So
for EVERY validated grammar the constructor succeeds — in particular for
the ambiguous grammar `gConf` (`S = S S | a`), whose LALR(1) automaton
(modelled from the spec) has an unresolved shift/reduce conflict — and the
claimed conflict error, with its state index, productions and lookahead
terminal, is never produced. -/
theorem c4_parser_new_ignores_conflicts :
    (∀ g : Grammar, Grammar.validate g = Except.ok () →
      ParserNew g = Except.ok ⟨⟩) ∧
    Grammar.validate gConf = Except.ok () ∧
    hasUnresolvedConflict (Bnf.augment (lowerGrammar gConf)) 32 = some true ∧
    ParserNew gConf = Except.ok ⟨⟩ := by
  refine ⟨?_, rfl, ?_, rfl⟩
  · intro g h
    unfold ParserNew
    rw [h]
  · rw [lowerGrammar_gConf]
    decide

/-- The universally quantified half of claim C4 instantiated on the
concrete conflicted grammar `gConf`. -/
theorem c4_parser_new_ignores_conflicts_witness :
    Grammar.validate gConf = Except.ok () ∧
    ParserNew gConf = Except.ok ⟨⟩ :=
  ⟨rfl, c4_parser_new_ignores_conflicts.1 gConf rfl⟩

end Yusi
